import Mathlib

/-!
Verification of the carabiner-dev/model-signing directory serializer.

This file is a shallow embedding of the Go sources:
  * serializer/dir/serializer.go   (Manifest, Serializer, New, gitPaths,
    shouldIgnore, Serialize, ComputeRootDigest, ComputeDigest)
  * serializer/options (Options, Default)

Modelling conventions:
  * Go byte slices are `List Nat` with every element < 256 where relevant.
  * Go strings are Lean `String`s; the byte-wise operations the code uses
    (splitting on '/', equality, prefix tests, `<` comparison) are modelled on
    the underlying `List Char`.  All characters appearing in paths are treated
    at the codepoint level; UTF-8 byte order coincides with codepoint order,
    so Go's byte-wise string comparison agrees with `String.lt`.
  * The host is modelled as Unix: `filepath.ToSlash` is the identity,
    `filepath.IsAbs` tests for a leading '/', and `filepath.Join`/`filepath.Rel`
    act on clean slash-separated paths.  All paths the serializer manipulates
    are clean: the model root comes from `filepath.Abs` and inner walk paths
    from `filepath.Join` with directory-entry names (which never contain '/'
    and are never "." or "..").
  * The filesystem snapshot seen by one `Serialize` call is a finite tree
    `FSNode`.  `filepath.Walk` visits entries with `os.Lstat` information and
    does not follow symbolic links; directory listings are read with
    `readDirNames` (sorted, distinct, '.'-'..'-free names).  The walk carries
    each regular file's content alongside its path: the external hasher
    (github.com/carabiner-dev/hasher) re-reads the selected paths and applies
    SHA-256 to their contents, which on an immutable snapshot is the content
    the walk saw.
  * SHA-256 itself is implemented bit-faithfully below (FIPS 180-4) over
    byte lists, so digest constants can be checked by the kernel.
-/

deriving instance DecidableEq for Except

namespace ModelSigning

/-! ### SHA-256 over byte lists (crypto/sha256) -/

/-- Truncation to a 32-bit word. -/
def w32 (n : Nat) : Nat := n % 4294967296

/-- Right rotation of a 32-bit word. -/
def rotr32 (n x : Nat) : Nat := ((x >>> n) ||| (x <<< (32 - n))) % 4294967296

/-- The SHA-256 Ch function. -/
def shaCh (e f g : Nat) : Nat := (e &&& f) ^^^ ((e ^^^ 4294967295) &&& g)

/-- The SHA-256 Maj function. -/
def shaMaj (a b c : Nat) : Nat := (a &&& b) ^^^ (a &&& c) ^^^ (b &&& c)

/-- The SHA-256 Σ₀ function. -/
def bigSigma0 (x : Nat) : Nat := rotr32 2 x ^^^ rotr32 13 x ^^^ rotr32 22 x

/-- The SHA-256 Σ₁ function. -/
def bigSigma1 (x : Nat) : Nat := rotr32 6 x ^^^ rotr32 11 x ^^^ rotr32 25 x

/-- The SHA-256 σ₀ function. -/
def smallSigma0 (x : Nat) : Nat := rotr32 7 x ^^^ rotr32 18 x ^^^ (x >>> 3)

/-- The SHA-256 σ₁ function. -/
def smallSigma1 (x : Nat) : Nat := rotr32 17 x ^^^ rotr32 19 x ^^^ (x >>> 10)

/-- The 64 SHA-256 round constants. -/
def K256 : List Nat :=
  [1116352408, 1899447441, 3049323471, 3921009573, 961987163, 1508970993,
   2453635748, 2870763221, 3624381080, 310598401, 607225278, 1426881987,
   1925078388, 2162078206, 2614888103, 3248222580, 3835390401, 4022224774,
   264347078, 604807628, 770255983, 1249150122, 1555081692, 1996064986,
   2554220882, 2821834349, 2952996808, 3210313671, 3336571891, 3584528711,
   113926993, 338241895, 666307205, 773529912, 1294757372, 1396182291,
   1695183700, 1986661051, 2177026350, 2456956037, 2730485921, 2820302411,
   3259730800, 3345764771, 3516065817, 3600352804, 4094571909, 275423344,
   430227734, 506948616, 659060556, 883997877, 958139571, 1322822218,
   1537002063, 1747873779, 1955562222, 2024104815, 2227730452, 2361852424,
   2428436474, 2756734187, 3204031479, 3329325298]

/-- The SHA-256 initial hash value. -/
def H256 : List Nat :=
  [1779033703, 3144134277, 1013904242, 2773480762,
   1359893119, 2600822924, 528734635, 1541459225]

/-- Big-endian eight-byte encoding of a natural number. -/
def be64 (n : Nat) : List Nat :=
  [(n >>> 56) % 256, (n >>> 48) % 256, (n >>> 40) % 256, (n >>> 32) % 256,
   (n >>> 24) % 256, (n >>> 16) % 256, (n >>> 8) % 256, n % 256]

/-- SHA-256 message padding: a 0x80 byte, zeros to 56 mod 64, then the
bit length, big endian. -/
def padMsg (msg : List Nat) : List Nat :=
  let L := msg.length
  msg ++ 128 :: List.replicate ((120 - (L + 1) % 64) % 64) 0 ++ be64 (8 * L)

/-- Group bytes into big-endian 32-bit words. -/
def toWords : List Nat → List Nat
  | a :: b :: c :: d :: rest => (a * 16777216 + b * 65536 + c * 256 + d) :: toWords rest
  | _ => []

/-- One step of the SHA-256 message-schedule extension. -/
def extendOnce (ws : List Nat) : List Nat :=
  let n := ws.length
  ws ++ [w32 (smallSigma1 (ws.getD (n - 2) 0) + ws.getD (n - 7) 0 +
              smallSigma0 (ws.getD (n - 15) 0) + ws.getD (n - 16) 0)]

/-- Iterated message-schedule extension. -/
def extendW : Nat → List Nat → List Nat
  | 0, ws => ws
  | k + 1, ws => extendW k (extendOnce ws)

/-- One SHA-256 compression round; `kw` is the round constant plus the
schedule word.  The state is the eight working variables a..h. -/
def shaRound (st : List Nat) (kw : Nat) : List Nat :=
  match st with
  | [a, b, c, d, e, f, g, h] =>
    let t1 := h + bigSigma1 e + shaCh e f g + kw
    let t2 := bigSigma0 a + shaMaj a b c
    [w32 (t1 + t2), a, b, c, w32 (d + t1), e, f, g]
  | st => st

/-- Compression of one 64-byte block into the running hash value. -/
def processBlock (H : List Nat) (block : List Nat) : List Nat :=
  let ws := extendW 48 (toWords block)
  let kws := List.zipWith (fun k w => k + w) K256 ws
  let st := kws.foldl shaRound H
  List.zipWith (fun x y => w32 (x + y)) H st

/-- Fuel-indexed chunking of a list into 64-byte blocks (the fuel makes the
definition structurally recursive, hence kernel-reducible). -/
def toBlocksF : Nat → List Nat → List (List Nat)
  | 0, _ => []
  | _, [] => []
  | fuel + 1, l => l.take 64 :: toBlocksF fuel (l.drop 64)

/-- Chunk a list into 64-byte blocks. -/
def toBlocks (l : List Nat) : List (List Nat) := toBlocksF l.length l

/-- Big-endian four-byte encoding of a 32-bit word. -/
def wordBE (w : Nat) : List Nat :=
  [(w >>> 24) % 256, (w >>> 16) % 256, (w >>> 8) % 256, w % 256]

/-- SHA-256 of a byte list, as 32 bytes. -/
def sha256Bytes (msg : List Nat) : List Nat :=
  (((toBlocks (padMsg msg)).foldl processBlock H256).map wordBE).flatten

/-! ### Hex encoding and decoding (encoding/hex) -/

/-- Lowercase hex digit for a value below 16. -/
def hexDigitChar (n : Nat) : Char := Char.ofNat (if n < 10 then 48 + n else 87 + n)

/-- Lowercase hex encoding of a byte list, as characters: two digits per
byte, high nibble first. -/
def hexEncodeBytes : List Nat → List Char
  | [] => []
  | b :: rest => hexDigitChar (b / 16) :: hexDigitChar (b % 16) :: hexEncodeBytes rest

/-- Lowercase hex encoding of a byte list (hex.EncodeToString). -/
def hexEncode (bs : List Nat) : String := ⟨hexEncodeBytes bs⟩

/-- SHA-256 of a byte list as a lowercase hex string.  This is what the
external hasher library records for each file's content. -/
def sha256Hex (msg : List Nat) : String := hexEncode (sha256Bytes msg)

/-- Value of one hex digit; `hex.DecodeString` accepts both cases. -/
def hexVal (c : Char) : Option Nat :=
  if 48 ≤ c.toNat ∧ c.toNat ≤ 57 then some (c.toNat - 48)
  else if 97 ≤ c.toNat ∧ c.toNat ≤ 102 then some (c.toNat - 87)
  else if 65 ≤ c.toNat ∧ c.toNat ≤ 70 then some (c.toNat - 55)
  else none

/-- Hex decoding of a character list; fails on odd length or a bad digit. -/
def hexDecodeC : List Char → Option (List Nat)
  | [] => some []
  | [_] => none
  | a :: b :: rest =>
    match hexVal a, hexVal b, hexDecodeC rest with
    | some x, some y, some tl => some ((16 * x + y) :: tl)
    | _, _, _ => none

/-- Hex decoding of a string (hex.DecodeString). -/
def hexDecode (s : String) : Option (List Nat) := hexDecodeC s.data

/-! ### Unix path model

Paths are clean, slash-separated strings.  `splitCh` and `joinCh` convert
between a path and its '/'-separated segments; `relSegs` is `filepath.Rel`
restricted to clean paths (compare segments while equal, then one ".." per
leftover base segment followed by the leftover target segments). -/

/-- Split a character list on '/'.  Always returns a nonempty list. -/
def splitCh : List Char → List (List Char)
  | [] => [[]]
  | c :: cs =>
    if c = '/' then [] :: splitCh cs
    else
      match splitCh cs with
      | [] => [[c]]
      | s :: ss => (c :: s) :: ss

/-- Join segments with '/'. -/
def joinCh : List (List Char) → List Char
  | [] => []
  | [s] => s
  | s :: ss => s ++ '/' :: joinCh ss

/-- Boolean prefix test on character lists (strings.HasPrefix, with the
pattern first). -/
def isPfx : List Char → List Char → Bool
  | [], _ => true
  | _ :: _, [] => false
  | a :: as, b :: bs => a = b && isPfx as bs

/-- filepath.IsAbs on Unix: a leading '/'. -/
def isAbsCh : List Char → Bool
  | '/' :: _ => true
  | _ => false

/-- Segment-level core of filepath.Rel on clean paths. -/
def relSegs : List (List Char) → List (List Char) → List (List Char)
  | b :: bs, t :: ts =>
    if b = t then relSegs bs ts
    else List.replicate (bs.length + 1) ['.', '.'] ++ (t :: ts)
  | [], ts => ts
  | bs, [] => List.replicate bs.length ['.', '.']

/-- filepath.Rel on clean paths (the only use sites in the serializer pass
two absolute clean paths, for which Rel cannot return an error). -/
def relCh (base targ : List Char) : List Char :=
  match relSegs (splitCh base) (splitCh targ) with
  | [] => ['.']
  | s :: ss => joinCh (s :: ss)

/-- filepath.Rel followed by filepath.ToSlash (the identity on Unix),
as a String. -/
def relStr (base targ : String) : String := ⟨relCh base.data targ.data⟩

/-- filepath.Join of a clean absolute directory path (other than "/") with
a directory-entry name. -/
def pathJoin (a b : String) : String := ⟨a.data ++ '/' :: b.data⟩

/-- Last '/'-separated segment: filepath.Base on the clean absolute paths
the serializer resolves. -/
def baseName (a : String) : String := ⟨(splitCh a.data).getLastD []⟩

/-- A well-formed directory-entry name, as `readdir` can produce it:
nonempty, without '/', and neither "." nor "..". -/
def validNameC (n : List Char) : Bool :=
  !n.isEmpty && !(n.contains '/') && n != ['.'] && n != ['.', '.']

/-- Validity of a name given as a String. -/
def validNameS (s : String) : Bool := validNameC s.data

/-- Validity of a list of path segments. -/
def validSegsB (segs : List String) : Bool := segs.all validNameS

/-- A clean absolute model-root path strictly below the filesystem root:
a leading '/' followed by one or more valid segment names. -/
def absOk (a : String) : Bool :=
  match splitCh a.data with
  | [] :: s :: ss => (s :: ss).all validNameC
  | _ => false

/-- The absolute path of the entry reached from `a` through the segment
list `segs` (repeated filepath.Join). -/
def pathJoinSegs (a : String) (segs : List String) : String :=
  ⟨a.data ++ segs.flatMap (fun s => '/' :: s.data)⟩

/-- The root-relative slash-joined name of the entry at segment list
`segs`; the root itself is ".". -/
def relName (segs : List String) : String :=
  match segs with
  | [] => "."
  | s :: ss => ⟨joinCh ((s :: ss).map (·.data))⟩

/-- Prefix test on segment lists. -/
def segsPfx : List (List Char) → List (List Char) → Bool
  | [], _ => true
  | _ :: _, [] => false
  | a :: as, b :: bs => a == b && segsPfx as bs

/-! ### Options (serializer/options) -/

/-- Options configures the serialization behavior (options.Options). -/
structure Options where
  IgnorePaths : List String
  IgnoreGitPaths : Bool
  AllowSymlinks : Bool
deriving DecidableEq

/-- options.Default: no explicit ignore paths, git paths ignored, symlinks
disallowed. -/
def Options.Default : Options :=
  { IgnorePaths := []
    IgnoreGitPaths := true
    AllowSymlinks := false }

/-! ### Manifest and Serializer (serializer/dir) -/

/-- The fields of an in-toto ResourceDescriptor this package uses: a name and
a digest map from algorithm name to hex digest (the Go map is modelled as an
association list; the code stores exactly one key, "sha256"). -/
structure ResourceDescriptor where
  Name : String
  Digest : List (String × String)
deriving DecidableEq

/-- Manifest represents the serialized model with all file hashes. -/
structure Manifest where
  ModelName : String
  Files : List ResourceDescriptor
deriving DecidableEq

/-- Serializer serializes a model directory and computes digests. -/
structure Serializer where
  opts : Options

/-- New creates a new Serializer with the given options; a nil pointer
(`none`) selects the defaults. -/
def New (opts : Option Options) : Serializer :=
  { opts := opts.getD Options.Default }

/-- gitPaths returns the default git-related paths to ignore. -/
def gitPaths : List String := [".git", ".gitignore", ".gitattributes", ".github"]

/-- Match step of shouldIgnore: the candidate's relative path equals the
check path, or extends it below a '/'. -/
def matchesIgn (relP cp : List Char) : Bool :=
  relP == cp || isPfx (cp ++ ['/']) relP

/-- Normalization of one ignore specifier against the model root: a relative
specifier is used as is; an absolute one is made root-relative, and skipped
(`none`) when the result reaches outside the model directory. -/
def checkPathOf (modelPath ignore : List Char) : Option (List Char) :=
  if isAbsCh ignore then
    let cr := relCh modelPath ignore
    if isPfx ['.', '.'] cr then none else some cr
  else some ignore

/-- shouldIgnore determines if a path should be ignored based on ignore
rules (serializer.go:49-84).  In the modelled domain `filepath.Rel` never
fails, so the Go `(bool, error)` result collapses to a Bool. -/
def shouldIgnore (path modelPath : String) (ignorePaths : List String) : Bool :=
  let relP := relCh modelPath.data path.data
  ignorePaths.any fun ignore =>
    match checkPathOf modelPath.data ignore.data with
    | none => false
    | some cp => matchesIgn relP cp

/-! ### The filesystem snapshot and the walk -/

mutual

/-- A node of the filesystem snapshot, as seen through `os.Lstat`: a regular
file with its content bytes, a directory with its entries, a symbolic link
(whose target is never consulted by `filepath.Walk`, which does not follow
links), or some other kind of entry (device, socket, ...). -/
inductive FSNode where
  | file (content : List Nat)
  | dir (entries : FSEntries)
  | symlink (target : FSNode)
  | special

/-- A directory listing: name/node pairs in the (sorted) order `readDirNames`
yields them. -/
inductive FSEntries where
  | nil
  | cons (name : String) (node : FSNode) (rest : FSEntries)

end

mutual

/-- The visitor of serializer.go:107-147 run by `filepath.Walk` over one node
(`path` is the node's path, `absRoot` the resolved model root): a disallowed
symlink aborts; an ignored directory is pruned; an ignored or non-regular
file is skipped; a surviving regular file is selected together with its
content (which is what the hasher will read at that path). -/
def walkNode (allow : Bool) (ign : List String) (absRoot path : String) :
    FSNode → Except String (List (String × List Nat))
  | .symlink _ =>
    if !allow then .error ("symlink not allowed: " ++ path ++ " (use AllowSymlinks option)")
    else .ok []
  | .special => .ok []
  | .file c =>
    if shouldIgnore path absRoot ign then .ok [] else .ok [(path, c)]
  | .dir es =>
    if shouldIgnore path absRoot ign then .ok []
    else walkEntries allow ign absRoot path es

/-- The walk over a directory listing, in order; the first error aborts. -/
def walkEntries (allow : Bool) (ign : List String) (absRoot path : String) :
    FSEntries → Except String (List (String × List Nat))
  | .nil => .ok []
  | .cons name child rest =>
    match walkNode allow ign absRoot (pathJoin path name) child with
    | .error e => .error e
    | .ok l1 =>
      match walkEntries allow ign absRoot path rest with
      | .error e => .error e
      | .ok l2 => .ok (l1 ++ l2)

end

/-- The names of a directory listing, in order. -/
def entryNames : FSEntries → List String
  | .nil => []
  | .cons n _ rest => n :: entryNames rest

mutual

/-- Well-formedness of a filesystem snapshot, recording what the OS
guarantees about real trees: every directory's entry names are valid
(`readdir` never yields "", ".", "..", or a name containing '/') and
pairwise distinct. -/
def WFb : FSNode → Bool
  | .file _ => true
  | .symlink _ => true
  | .special => true
  | .dir es => WFEb es

/-- Well-formedness of a directory listing. -/
def WFEb : FSEntries → Bool
  | .nil => true
  | .cons name child rest =>
    validNameS name && !((entryNames rest).contains name) && WFb child && WFEb rest

end

mutual

/-- All regular files of a snapshot, each with its segment path relative to
the node and its content. -/
def allFilesN : FSNode → List (List String × List Nat)
  | .file c => [([], c)]
  | .dir es => allFilesE es
  | .symlink _ => []
  | .special => []

/-- All regular files below a directory listing. -/
def allFilesE : FSEntries → List (List String × List Nat)
  | .nil => []
  | .cons name child rest =>
    (allFilesN child).map (fun sc => (name :: sc.1, sc.2)) ++ allFilesE rest

end

/-- The files the walk should select below prefix `pre`: those of the given
collection whose own absolute path is not ignored, paired with that absolute
path. -/
def filesUnder (a : String) (ign : List String) (pre : List String)
    (l : List (List String × List Nat)) : List (String × List Nat) :=
  (l.filter (fun sc => !shouldIgnore (pathJoinSegs a (pre ++ sc.1)) a ign)).map
    (fun sc => (pathJoinSegs a (pre ++ sc.1), sc.2))

mutual

/-- The path of the first symbolic link the walk visits (in walk order,
honouring directory pruning), if any. -/
def findSymN (ign : List String) (absRoot path : String) : FSNode → Option String
  | .symlink _ => some path
  | .file _ => none
  | .special => none
  | .dir es =>
    if shouldIgnore path absRoot ign then none
    else findSymE ign absRoot path es

/-- First visited symbolic link below a directory listing. -/
def findSymE (ign : List String) (absRoot path : String) : FSEntries → Option String
  | .nil => none
  | .cons name child rest =>
    match findSymN ign absRoot (pathJoin path name) child with
    | some p => some p
    | none => findSymE ign absRoot path rest

end

mutual

/-- The snapshot with every symbolic link replaced by a plain non-regular
entry (used to state that allowed symlinks contribute nothing: they are
neither followed nor hashed). -/
def stripSymlinks : FSNode → FSNode
  | .file c => .file c
  | .symlink _ => .special
  | .special => .special
  | .dir es => .dir (stripSymlinksE es)

/-- stripSymlinks over a directory listing. -/
def stripSymlinksE : FSEntries → FSEntries
  | .nil => .nil
  | .cons name child rest => .cons name (stripSymlinks child) (stripSymlinksE rest)

end

/-- Byte-wise (lexicographic, by codepoint) strict comparison of character
lists: Go's `<` on strings.  UTF-8 byte order coincides with codepoint
order, so comparing codepoints is comparing bytes. -/
def ltCh : List Char → List Char → Bool
  | [], [] => false
  | [], _ :: _ => true
  | _ :: _, [] => false
  | a :: as, b :: bs =>
    if a.toNat = b.toNat then ltCh as bs else decide (a.toNat < b.toNat)

/-- Go's `<` on strings, byte-wise. -/
def strLtB (x y : String) : Bool := ltCh x.data y.data

/-- Ordering used to sort manifest entries (serializer.go:185-187 sorts by
`Name` with Go's byte-wise string `<`; the matching non-strict order is
"not greater"). -/
def fdLe (x y : ResourceDescriptor) : Prop := strLtB y.Name x.Name = false

instance : DecidableRel fdLe := fun _ _ => inferInstanceAs (Decidable (_ = false))

/-- The complete ignore list Serialize walks with (serializer.go:95-102):
the caller's ignore paths, plus, when IgnoreGitPaths is set, the four git
paths joined onto the resolved root.  (The Go code appends to a freshly
copied slice; the caller-mutation question is treated separately in the
slice-heap model below.) -/
def effIgnore (s : Serializer) (absPath : String) : List String :=
  s.opts.IgnorePaths ++
    (if s.opts.IgnoreGitPaths then gitPaths.map (fun g => pathJoin absPath g) else [])

/-- Serialize traverses the model directory snapshot and creates a manifest
with file hashes (serializer.go:87-195).  `absPath` is the already resolved
absolute model path and `root` the snapshot at that path.  The final
`sort.Slice` is modelled by insertion sort: both produce a permutation that
is sorted by `Name`. -/
def Serializer.Serialize (s : Serializer) (absPath : String) (root : FSNode) :
    Except String Manifest :=
  match walkNode s.opts.AllowSymlinks (effIgnore s absPath) absPath absPath root with
  | .error e => .error ("failed to walk directory: " ++ e)
  | .ok files =>
    .ok { ModelName := baseName absPath
          Files := List.insertionSort fdLe (files.map (fun pc =>
            { Name := relStr absPath pc.1
              Digest := [("sha256", sha256Hex pc.2)] : ResourceDescriptor })) }

/-- The byte accumulator of ComputeRootDigest: the manifest entries feed
their decoded sha256 bytes, in order, into the running hash input; a missing
sha256 entry or malformed hex aborts, naming the entry. -/
def rootAccum : List ResourceDescriptor → List Nat → Except String (List Nat)
  | [], acc => .ok acc
  | fd :: rest, acc =>
    match List.lookup "sha256" fd.Digest with
    | none => .error ("sha256 digest not found for " ++ fd.Name)
    | some hv =>
      match hexDecode hv with
      | none => .error ("failed to decode hash for " ++ fd.Name)
      | some bs => rootAccum rest (acc ++ bs)

/-- ComputeRootDigest computes the root digest from a manifest
(serializer.go:200-223): SHA-256 of the concatenated raw per-file hashes,
hex encoded. -/
def ComputeRootDigest (manifest : Manifest) : Except String String :=
  match rootAccum manifest.Files [] with
  | .error e => .error e
  | .ok bs => .ok (hexEncode (sha256Bytes bs))

/-- ComputeDigest serializes a model directory snapshot and returns the root
digest in algorithm:hash format (serializer.go:227-240). -/
def ComputeDigest (modelPath : String) (root : FSNode) (opts : Option Options) :
    Except String String :=
  match (New opts).Serialize modelPath root with
  | .error e => .error e
  | .ok manifest =>
    match ComputeRootDigest manifest with
    | .error e => .error e
    | .ok rootDigest => .ok ("sha256:" ++ rootDigest)

/-! ### Specification-side descriptions used by the claims -/

/-- The decoded raw sha256 bytes of one manifest entry, when present and
well formed. -/
def entryBytes (fd : ResourceDescriptor) : Option (List Nat) :=
  (List.lookup "sha256" fd.Digest).bind hexDecode

/-- Concatenation of every entry's decoded raw sha256 bytes, in stored
order; `none` when some entry lacks a sha256 digest or its hex is
malformed. -/
def manifestRawBytes : List ResourceDescriptor → Option (List Nat)
  | [] => some []
  | fd :: rest =>
    match entryBytes fd, manifestRawBytes rest with
    | some bs, some tl => some (bs ++ tl)
    | _, _ => none

/-- Lowercase hexadecimal digits. -/
def isLowerHexDigit (c : Char) : Bool := ("0123456789abcdef".data).contains c

/-- The root digest string of a manifest (the value inside ComputeRootDigest
when it succeeds). -/
def rootDigestStr (m : Manifest) : String :=
  match ComputeRootDigest m with
  | .ok r => r
  | .error _ => ""

/-! ### A small Go-slice heap model for the frame claim

Serialize reads its Options but the one place that could mutate the caller's
data through aliasing is the ignore-list construction (serializer.go:95-101):

    ignorePaths := make([]string, len(s.opts.IgnorePaths))
    copy(ignorePaths, s.opts.IgnorePaths)
    if s.opts.IgnoreGitPaths { for _, g := range gitPaths() {
        ignorePaths = append(ignorePaths, filepath.Join(absPath, g)) } }

Go slices alias a backing array, so `append` on a slice with spare capacity
writes into memory the caller may also see.  The model below gives slices
their array-id/offset/length/capacity semantics over an explicit heap and
replays exactly the fragment above. -/

/-- A heap of string arrays, addressed by index. -/
structure GoHeap where
  arrays : List (List String)
deriving DecidableEq

/-- A Go slice header: backing array id, offset, length, capacity. -/
structure GoSlice where
  arr : Nat
  off : Nat
  len : Nat
  cap : Nat
deriving DecidableEq

/-- The elements a slice denotes. -/
def readSlice (h : GoHeap) (s : GoSlice) : List String :=
  ((h.arrays.getD s.arr []).drop s.off).take s.len

/-- A slice header consistent with the heap. -/
def SliceValid (h : GoHeap) (s : GoSlice) : Prop :=
  s.arr < h.arrays.length ∧
  s.off + s.cap ≤ (h.arrays.getD s.arr []).length ∧
  s.len ≤ s.cap

instance (h : GoHeap) (s : GoSlice) : Decidable (SliceValid h s) :=
  inferInstanceAs (Decidable (_ ∧ _ ∧ _))

/-- Allocate a fresh array. -/
def allocArray (h : GoHeap) (contents : List String) : GoHeap × Nat :=
  (⟨h.arrays ++ [contents]⟩, h.arrays.length)

/-- make([]string, n): a fresh zeroed array, len = cap = n. -/
def makeSlice (h : GoHeap) (n : Nat) : GoHeap × GoSlice :=
  let p := allocArray h (List.replicate n "")
  (p.1, ⟨p.2, 0, n, n⟩)

/-- copy(dst, src): overwrite dst's first min(len) cells with src's
elements.  (The heap after Go's element-by-element loop; written as one
bulk region update.) -/
def copySlice (h : GoHeap) (dst src : GoSlice) : GoHeap :=
  let k := min dst.len src.len
  let arr := h.arrays.getD dst.arr []
  let newarr := arr.take dst.off ++ (readSlice h src).take k ++ arr.drop (dst.off + k)
  ⟨h.arrays.set dst.arr newarr⟩

/-- append(s, v): write in place when capacity remains, otherwise move to a
fresh, larger array (the exact growth factor is immaterial here). -/
def appendSlice (h : GoHeap) (s : GoSlice) (v : String) : GoHeap × GoSlice :=
  if s.len < s.cap then
    (⟨h.arrays.set s.arr ((h.arrays.getD s.arr []).set (s.off + s.len) v)⟩,
     { s with len := s.len + 1 })
  else
    let newcap := 2 * s.cap + 1
    let p := allocArray h (readSlice h s ++ v :: List.replicate (newcap - s.len - 1) "")
    (p.1, ⟨p.2, 0, s.len + 1, newcap⟩)

/-- The ignore-list construction of serializer.go:95-101, replayed on the
slice heap: make a copy of the caller's IgnorePaths slice and append the
git specifiers to the copy. -/
def buildIgnoreSlices (h : GoHeap) (optsIgnore : GoSlice) (gitFlag : Bool)
    (absPath : String) : GoHeap × GoSlice :=
  let p1 := makeSlice h optsIgnore.len
  let h2 := copySlice p1.1 p1.2 optsIgnore
  if gitFlag then
    gitPaths.foldl (fun hs g => appendSlice hs.1 hs.2 (pathJoin absPath g)) (h2, p1.2)
  else (h2, p1.2)

/-! ### Theorems -/

theorem ltCh_irrefl (l : List Char) : ltCh l l = false := by
  induction l with
  | nil => rfl
  | cons a as ih => simp [ltCh, ih]

theorem ltCh_connected {a b : List Char} (hab : ltCh a b = false)
    (hba : ltCh b a = false) : a = b := by
  induction a generalizing b with
  | nil =>
    cases b with
    | nil => rfl
    | cons y ys => simp [ltCh] at hab
  | cons x xs ih =>
    cases b with
    | nil => simp [ltCh] at hba
    | cons y ys =>
      simp only [ltCh] at hab hba
      by_cases h : x.toNat = y.toNat
      · have hxy : x = y := Char.ext (UInt32.ext h)
        subst hxy
        rw [if_pos rfl] at hab hba
        exact congrArg (x :: ·) (ih hab hba)
      · rw [if_neg h, decide_eq_false_iff_not] at hab
        rw [if_neg (fun hyx => h hyx.symm), decide_eq_false_iff_not] at hba
        rcases Nat.lt_or_lt_of_ne h with hc | hc
        · exact absurd hc hab
        · exact absurd hc hba

/-- Co-transitivity of the byte-wise order: if a < c then, for any b,
either a < b or b < c. -/
theorem ltCh_cotrans {a c : List Char} (h : ltCh a c = true) (b : List Char) :
    ltCh a b = true ∨ ltCh b c = true := by
  induction a generalizing b c with
  | nil =>
    cases c with
    | nil => simp [ltCh] at h
    | cons y ys =>
      cases b with
      | nil => exact Or.inr (by simp [ltCh])
      | cons z zs => exact Or.inl (by simp [ltCh])
  | cons x xs ih =>
    cases c with
    | nil => simp [ltCh] at h
    | cons y ys =>
      cases b with
      | nil => exact Or.inr (by simp [ltCh])
      | cons z zs =>
        simp only [ltCh] at h ⊢
        rcases Nat.lt_trichotomy x.toNat z.toNat with hxz | hxz | hxz
        · exact Or.inl (by rw [if_neg (Nat.ne_of_lt hxz)]; exact decide_eq_true hxz)
        · by_cases hxy : x.toNat = y.toNat
          · rw [if_pos hxy] at h
            rcases ih h zs with hl | hr
            · exact Or.inl (by rw [if_pos hxz]; exact hl)
            · exact Or.inr (by rw [if_pos (hxz ▸ hxy : z.toNat = y.toNat)]; exact hr)
          · rw [if_neg hxy, decide_eq_true_iff] at h
            refine Or.inr ?_
            have hzy : z.toNat < y.toNat := hxz ▸ h
            rw [if_neg (Nat.ne_of_lt hzy)]
            exact decide_eq_true hzy
        · refine Or.inr ?_
          have hzy : z.toNat < y.toNat := by
            by_cases hxy : x.toNat = y.toNat
            · exact hxy ▸ hxz
            · rw [if_neg hxy, decide_eq_true_iff] at h
              exact Nat.lt_trans hxz h
          rw [if_neg (Nat.ne_of_lt hzy)]
          exact decide_eq_true hzy

theorem ltCh_asymm {a b : List Char} (h : ltCh a b = true) : ltCh b a = false := by
  induction a generalizing b with
  | nil =>
    cases b with
    | nil => simp [ltCh] at h
    | cons y ys => rfl
  | cons x xs ih =>
    cases b with
    | nil => simp [ltCh] at h
    | cons y ys =>
      simp only [ltCh] at h ⊢
      by_cases hxy : x.toNat = y.toNat
      · rw [if_pos hxy] at h
        rw [if_pos hxy.symm]
        exact ih h
      · rw [if_neg hxy, decide_eq_true_iff] at h
        rw [if_neg (fun hyx => hxy hyx.symm), decide_eq_false_iff_not]
        exact Nat.lt_asymm h

theorem ltCh_trans {a b c : List Char} (hab : ltCh a b = true)
    (hbc : ltCh b c = true) : ltCh a c = true := by
  cases hac : ltCh a c
  · rcases ltCh_cotrans hab c with h | h
    · rw [hac] at h; exact h
    · rw [ltCh_asymm hbc] at h; exact h
  · rfl

instance : IsTotal ResourceDescriptor fdLe := by
  constructor
  intro x y
  unfold fdLe strLtB
  cases hyx : ltCh y.Name.data x.Name.data
  · exact Or.inl rfl
  · exact Or.inr (ltCh_asymm hyx)

/-- Non-strict transitivity: not (b < a) and not (c < b) imply not (c < a). -/
theorem leCh_trans {a b c : List Char} (hab : ltCh b a = false)
    (hbc : ltCh c b = false) : ltCh c a = false := by
  cases hca : ltCh c a
  · rfl
  · rcases ltCh_cotrans hca b with h | h
    · rw [hbc] at h; exact absurd h (by simp)
    · rw [hab] at h; exact absurd h (by simp)

instance : IsTrans ResourceDescriptor fdLe :=
  ⟨fun _ _ _ hab hbc => leCh_trans hab hbc⟩

theorem rootAccum_of_rawBytes {files : List ResourceDescriptor} {bs : List Nat}
    (h : manifestRawBytes files = some bs) (acc : List Nat) :
    rootAccum files acc = .ok (acc ++ bs) := by
  induction files generalizing bs acc with
  | nil =>
    simp only [manifestRawBytes, Option.some.injEq] at h
    subst h
    simp [rootAccum]
  | cons fd rest ih =>
    simp only [manifestRawBytes] at h
    cases hfd : entryBytes fd with
    | none => rw [hfd] at h; exact absurd h (by simp)
    | some bs1 =>
      cases hrest : manifestRawBytes rest with
      | none => rw [hfd, hrest] at h; exact absurd h (by simp)
      | some tl =>
        rw [hfd, hrest, Option.some.injEq] at h
        subst h
        simp only [entryBytes, Option.bind_eq_some] at hfd
        obtain ⟨hv, hlk, hdec⟩ := hfd
        simp only [rootAccum, hlk, hdec]
        rw [ih hrest (acc ++ bs1), List.append_assoc]

/-! ### Claim C1 -/

/-- C1: for every Manifest whose entries all carry well-formed sha256 hex
digests, ComputeRootDigest returns the lowercase hex encoding of SHA-256 of
the concatenation of the entries' decoded raw hash bytes, in stored order;
and on any Manifest with zero entries it returns the SHA-256 digest of the
empty byte string,
e3b0c44298fc1c149afbf4c8996fb92427ae41e4649b934ca495991b7852b855. -/
theorem computeRootDigest_is_sha_of_concat (m : Manifest) (bs : List Nat)
    (h : manifestRawBytes m.Files = some bs) :
    ComputeRootDigest m = .ok (hexEncode (sha256Bytes bs)) ∧
    ∀ name : String,
      ComputeRootDigest { ModelName := name, Files := [] } =
        .ok "e3b0c44298fc1c149afbf4c8996fb92427ae41e4649b934ca495991b7852b855" := by
  constructor
  · simp only [ComputeRootDigest]
    rw [rootAccum_of_rawBytes h []]
    rfl
  · intro name
    show Except.ok (hexEncode (sha256Bytes [])) = _
    have : hexEncode (sha256Bytes []) =
        "e3b0c44298fc1c149afbf4c8996fb92427ae41e4649b934ca495991b7852b855" := by decide
    rw [this]

/-- Witness for C1 at a concrete one-entry manifest. -/
theorem computeRootDigest_is_sha_of_concat_witness :
    manifestRawBytes [{ Name := "f", Digest := [("sha256", "00ff")] }] = some [0, 255] ∧
    ComputeRootDigest { ModelName := "m", Files := [{ Name := "f", Digest := [("sha256", "00ff")] }] } =
      .ok (hexEncode (sha256Bytes [0, 255])) :=
  ⟨by decide,
   (computeRootDigest_is_sha_of_concat
      { ModelName := "m", Files := [{ Name := "f", Digest := [("sha256", "00ff")] }] }
      [0, 255] (by decide)).1⟩

/-! ### Shape lemmas for SHA-256 output and hex round-tripping -/

theorem shaRound_length (st : List Nat) (kw : Nat) :
    (shaRound st kw).length = st.length := by
  unfold shaRound
  split
  · simp
  · rfl

theorem foldl_shaRound_length (kws : List Nat) (st : List Nat) :
    (kws.foldl shaRound st).length = st.length := by
  induction kws generalizing st with
  | nil => rfl
  | cons k rest ih => rw [List.foldl_cons, ih, shaRound_length]

theorem processBlock_length (H b : List Nat) :
    (processBlock H b).length = H.length := by
  simp [processBlock, List.length_zipWith, foldl_shaRound_length]

theorem foldl_processBlock_length (blocks : List (List Nat)) (H : List Nat) :
    (blocks.foldl processBlock H).length = H.length := by
  induction blocks generalizing H with
  | nil => rfl
  | cons b rest ih => rw [List.foldl_cons, ih, processBlock_length]

theorem flatten_wordBE_length (H : List Nat) :
    ((H.map wordBE).flatten).length = 4 * H.length := by
  induction H with
  | nil => rfl
  | cons w rest ih =>
    simp only [List.map_cons, List.flatten_cons, List.length_append, ih, List.length_cons]
    simp [wordBE]
    ring

theorem sha256Bytes_length (msg : List Nat) : (sha256Bytes msg).length = 32 := by
  unfold sha256Bytes
  rw [flatten_wordBE_length, foldl_processBlock_length]
  rfl

theorem mem_wordBE_lt {b w : Nat} (h : b ∈ wordBE w) : b < 256 := by
  simp only [wordBE, List.mem_cons, List.not_mem_nil, or_false] at h
  rcases h with rfl | rfl | rfl | rfl <;> exact Nat.mod_lt _ (by decide)

theorem sha256Bytes_lt (msg : List Nat) : ∀ b ∈ sha256Bytes msg, b < 256 := by
  intro b hb
  unfold sha256Bytes at hb
  rw [List.mem_flatten] at hb
  obtain ⟨l, hl, hbl⟩ := hb
  rw [List.mem_map] at hl
  obtain ⟨w, _, rfl⟩ := hl
  exact mem_wordBE_lt hbl

theorem hexVal_hexDigitChar {x : Nat} (h : x < 16) :
    hexVal (hexDigitChar x) = some x := by
  interval_cases x <;> decide

theorem hexDecodeC_encodeBytes {bs : List Nat} (h : ∀ b ∈ bs, b < 256) :
    hexDecodeC (hexEncodeBytes bs) = some bs := by
  induction bs with
  | nil => rfl
  | cons b rest ih =>
    have hb : b < 256 := h b (List.mem_cons_self b rest)
    have hdiv : b / 16 < 16 := by omega
    have hmod : b % 16 < 16 := Nat.mod_lt _ (by decide)
    show hexDecodeC (hexDigitChar (b / 16) :: hexDigitChar (b % 16) :: hexEncodeBytes rest) = _
    simp only [hexDecodeC, hexVal_hexDigitChar hdiv, hexVal_hexDigitChar hmod,
      ih (fun x hx => h x (List.mem_cons_of_mem b hx))]
    have hrec : 16 * (b / 16) + b % 16 = b := by omega
    rw [hrec]

theorem hexDecode_hexEncode {bs : List Nat} (h : ∀ b ∈ bs, b < 256) :
    hexDecode (hexEncode bs) = some bs :=
  hexDecodeC_encodeBytes h

theorem hexEncodeBytes_length (bs : List Nat) :
    (hexEncodeBytes bs).length = 2 * bs.length := by
  induction bs with
  | nil => rfl
  | cons b rest ih =>
    show (hexDigitChar (b / 16) :: hexDigitChar (b % 16) :: hexEncodeBytes rest).length = _
    simp [ih]
    ring

theorem hexDigitChar_isLower {x : Nat} (h : x < 16) :
    isLowerHexDigit (hexDigitChar x) = true := by
  interval_cases x <;> decide

theorem hexEncodeBytes_lower {bs : List Nat} (h : ∀ b ∈ bs, b < 256) :
    ∀ c ∈ hexEncodeBytes bs, isLowerHexDigit c = true := by
  induction bs with
  | nil => intro c hc; simp [hexEncodeBytes] at hc
  | cons b rest ih =>
    intro c hc
    have hb : b < 256 := h b (List.mem_cons_self b rest)
    have hdiv : b / 16 < 16 := by omega
    have hmod : b % 16 < 16 := Nat.mod_lt _ (by decide)
    rw [show hexEncodeBytes (b :: rest) =
      hexDigitChar (b / 16) :: hexDigitChar (b % 16) :: hexEncodeBytes rest from rfl,
      List.mem_cons, List.mem_cons] at hc
    rcases hc with rfl | rfl | hc
    · exact hexDigitChar_isLower hdiv
    · exact hexDigitChar_isLower hmod
    · exact ih (fun x hx => h x (List.mem_cons_of_mem b hx)) c hc

theorem manifestRawBytes_isSome {files : List ResourceDescriptor}
    (h : ∀ fd ∈ files, ∃ bs, entryBytes fd = some bs) :
    ∃ bs, manifestRawBytes files = some bs := by
  induction files with
  | nil => exact ⟨[], rfl⟩
  | cons fd rest ih =>
    obtain ⟨bs1, hbs1⟩ := h fd (List.mem_cons_self fd rest)
    obtain ⟨tl, htl⟩ := ih (fun x hx => h x (List.mem_cons_of_mem fd hx))
    exact ⟨bs1 ++ tl, by simp [manifestRawBytes, hbs1, htl]⟩

/-- Digest shape of every entry Serialize produces. -/
theorem serialize_files_shape {s : Serializer} {absPath : String} {root : FSNode}
    {M : Manifest} (h : s.Serialize absPath root = .ok M) :
    ∀ fd ∈ M.Files, ∃ c, fd.Digest = [("sha256", sha256Hex c)] := by
  unfold Serializer.Serialize at h
  cases hw : walkNode s.opts.AllowSymlinks (effIgnore s absPath) absPath absPath root with
  | error e => rw [hw] at h; exact absurd h (by simp)
  | ok files =>
    rw [hw] at h
    simp only [Except.ok.injEq] at h
    subst h
    intro fd hfd
    have hmem := (List.perm_insertionSort fdLe _).mem_iff.mp hfd
    rw [List.mem_map] at hmem
    obtain ⟨pc, _, rfl⟩ := hmem
    exact ⟨pc.2, rfl⟩

/-! ### Claim C2 -/

/-- C2: whenever the pipeline succeeds, ComputeDigest returns exactly the
literal "sha256:" followed by the 64-lowercase-hex root digest that
ComputeRootDigest computes for the Manifest Serialize produced for the same
tree and configuration. -/
theorem computeDigest_format (absPath : String) (root : FSNode)
    (opts : Option Options) (M : Manifest)
    (h : (New opts).Serialize absPath root = .ok M) :
    ComputeRootDigest M = .ok (rootDigestStr M) ∧
    ComputeDigest absPath root opts = .ok ("sha256:" ++ rootDigestStr M) ∧
    (rootDigestStr M).length = 64 ∧
    (rootDigestStr M).data.all isLowerHexDigit = true := by
  have hshape := serialize_files_shape h
  have hsome : ∀ fd ∈ M.Files, ∃ bs, entryBytes fd = some bs := by
    intro fd hfd
    obtain ⟨c, hc⟩ := hshape fd hfd
    refine ⟨sha256Bytes c, ?_⟩
    simp only [entryBytes, hc]
    show (some (sha256Hex c)).bind hexDecode = _
    simpa using hexDecode_hexEncode (sha256Bytes_lt c)
  obtain ⟨bs, hbs⟩ := manifestRawBytes_isSome hsome
  have hC : ComputeRootDigest M = .ok (hexEncode (sha256Bytes bs)) := by
    simp [ComputeRootDigest, rootAccum_of_rawBytes hbs []]
  have hr : rootDigestStr M = hexEncode (sha256Bytes bs) := by
    unfold rootDigestStr
    rw [hC]
  refine ⟨by rw [hC, hr], ?_, ?_, ?_⟩
  · unfold ComputeDigest
    rw [h]
    dsimp only
    rw [hC]
    dsimp only
    rw [hr]
  · rw [hr]
    show (hexEncodeBytes (sha256Bytes bs)).length = 64
    rw [hexEncodeBytes_length, sha256Bytes_length]
  · rw [hr]
    rw [List.all_eq_true]
    exact fun c hc => hexEncodeBytes_lower (sha256Bytes_lt bs) c hc

/-- Witness for C2 on a one-file tree with default options. -/
theorem computeDigest_format_witness :
    (New none).Serialize "/m" (.dir (.cons "a.txt" (.file [10]) .nil)) =
      .ok { ModelName := "m",
            Files := [{ Name := "a.txt", Digest := [("sha256", sha256Hex [10])] }] } ∧
    ComputeDigest "/m" (.dir (.cons "a.txt" (.file [10]) .nil)) none =
      .ok ("sha256:" ++ rootDigestStr
        { ModelName := "m",
          Files := [{ Name := "a.txt", Digest := [("sha256", sha256Hex [10])] }] }) :=
  ⟨by decide,
   (computeDigest_format "/m" (.dir (.cons "a.txt" (.file [10]) .nil)) none
      { ModelName := "m",
        Files := [{ Name := "a.txt", Digest := [("sha256", sha256Hex [10])] }] }
      (by decide)).2.1⟩

/-! ### Claim C9 -/

/-- C9: New with a nil options pointer produces a Serializer with the
default configuration (no explicit ignore paths, git paths ignored,
symlinks disallowed), and it behaves identically to one constructed from
the default configuration on every tree. -/
theorem new_nil_behaves_as_default :
    New none = New (some Options.Default) ∧
    (New none).opts =
      { IgnorePaths := [], IgnoreGitPaths := true, AllowSymlinks := false } ∧
    ∀ (absPath : String) (root : FSNode),
      (New none).Serialize absPath root = (New (some Options.Default)).Serialize absPath root :=
  ⟨rfl, rfl, fun _ _ => rfl⟩

/-! ### Path lemmas -/

theorem string_mk_data (s : String) : (⟨s.data⟩ : String) = s := by
  cases s
  rfl

theorem isPfx_self_append (p rest : List Char) : isPfx p (p ++ rest) = true := by
  induction p with
  | nil => rfl
  | cons a as ih => simp [isPfx, ih]

theorem isPfx_append_right {p l : List Char} (h : isPfx p l = true) (x : List Char) :
    isPfx p (l ++ x) = true := by
  induction p generalizing l with
  | nil => rfl
  | cons a as ih =>
    cases l with
    | nil => simp [isPfx] at h
    | cons b bs =>
      simp only [isPfx, Bool.and_eq_true, decide_eq_true_eq] at h
      simp only [List.cons_append, isPfx, Bool.and_eq_true, decide_eq_true_eq]
      exact ⟨h.1, ih h.2⟩

theorem splitCh_ne_nil (l : List Char) : splitCh l ≠ [] := by
  cases l with
  | nil => simp [splitCh]
  | cons c cs =>
    simp only [splitCh]
    by_cases h : c = '/'
    · simp [h]
    · rw [if_neg h]
      cases hs : splitCh cs <;> simp

theorem splitCh_append_sep (u v : List Char) :
    splitCh (u ++ '/' :: v) = splitCh u ++ splitCh v := by
  induction u with
  | nil => rfl
  | cons c cs ih =>
    rw [List.cons_append]
    by_cases h : c = '/'
    · subst h
      show [] :: splitCh (cs ++ '/' :: v) = ([] :: splitCh cs) ++ splitCh v
      rw [ih]
      rfl
    · have e1 : splitCh (c :: (cs ++ '/' :: v)) =
          match splitCh (cs ++ '/' :: v) with
          | [] => [[c]]
          | s :: ss => (c :: s) :: ss := by
        simp [splitCh, if_neg h]
      have e2 : splitCh (c :: cs) =
          match splitCh cs with
          | [] => [[c]]
          | s :: ss => (c :: s) :: ss := by
        simp [splitCh, if_neg h]
      rw [e1, e2, ih]
      cases hs : splitCh cs with
      | nil => exact absurd hs (splitCh_ne_nil cs)
      | cons s ss => simp

theorem splitCh_no_sep {n : List Char} (h : n.contains '/' = false) :
    splitCh n = [n] := by
  induction n with
  | nil => rfl
  | cons c cs ih =>
    simp only [List.contains_cons, Bool.or_eq_false_iff] at h
    have hc : ¬ c = '/' := by
      intro hcc
      rw [hcc] at h
      simp at h
    simp only [splitCh, if_neg hc, ih h.2]

theorem joinSegs_eq_flat (n : String) (rest : List String) :
    joinCh ((n :: rest).map (·.data)) = n.data ++ rest.flatMap (fun s => '/' :: s.data) := by
  induction rest generalizing n with
  | nil => simp [joinCh]
  | cons m ms ih =>
    show joinCh (n.data :: (m :: ms).map (·.data)) = _
    rw [show joinCh (n.data :: (m :: ms).map (·.data)) =
      n.data ++ '/' :: joinCh ((m :: ms).map (·.data)) from rfl, ih m]
    simp only [List.flatMap_cons, List.cons_append, List.append_assoc]

theorem validNameC_no_sep {n : List Char} (h : validNameC n = true) :
    n.contains '/' = false := by
  simp only [validNameC, Bool.and_eq_true, Bool.not_eq_true'] at h
  exact h.1.1.2

theorem validNameC_ne_nil {n : List Char} (h : validNameC n = true) : n ≠ [] := by
  simp only [validNameC, Bool.and_eq_true, Bool.not_eq_true'] at h
  have := h.1.1.1
  simpa [List.isEmpty_iff] using this

theorem splitCh_joinSegs {segs : List String} (h : validSegsB segs = true)
    (hne : segs ≠ []) :
    splitCh (joinCh (segs.map (·.data))) = segs.map (·.data) := by
  induction segs with
  | nil => exact absurd rfl hne
  | cons n rest ih =>
    simp only [validSegsB, List.all_cons, Bool.and_eq_true] at h
    cases rest with
    | nil =>
      show splitCh (joinCh [n.data]) = [n.data]
      show splitCh n.data = [n.data]
      exact splitCh_no_sep (validNameC_no_sep h.1)
    | cons m ms =>
      rw [show joinCh ((n :: m :: ms).map (·.data)) =
        n.data ++ '/' :: joinCh ((m :: ms).map (·.data)) from rfl]
      have hfl : n.data.contains '/' = false := validNameC_no_sep h.1
      calc splitCh (n.data ++ '/' :: joinCh ((m :: ms).map (·.data)))
          = splitCh n.data ++ splitCh (joinCh ((m :: ms).map (·.data))) :=
            splitCh_append_sep _ _
        _ = [n.data] ++ (m :: ms).map (·.data) := by
            rw [splitCh_no_sep hfl, ih (by simpa [validSegsB] using h.2) (by simp)]
        _ = (n :: m :: ms).map (·.data) := rfl

theorem pathJoinSegs_nil (a : String) : pathJoinSegs a [] = a := by
  show (⟨a.data ++ []⟩ : String) = a
  rw [List.append_nil]

theorem pathJoinSegs_snoc (a : String) (pre : List String) (n : String) :
    pathJoinSegs a (pre ++ [n]) = pathJoin (pathJoinSegs a pre) n := by
  show (⟨a.data ++ (pre ++ [n]).flatMap (fun s => '/' :: s.data)⟩ : String) =
    ⟨(a.data ++ pre.flatMap (fun s => '/' :: s.data)) ++ '/' :: n.data⟩
  rw [List.flatMap_append, List.flatMap_cons, List.flatMap_nil, List.append_nil,
    List.append_assoc]

theorem splitCh_pathJoinSegs (a : String) {segs : List String}
    (h : validSegsB segs = true) :
    splitCh (pathJoinSegs a segs).data = splitCh a.data ++ segs.map (·.data) := by
  cases segs with
  | nil => simp [pathJoinSegs]
  | cons n rest =>
    show splitCh (a.data ++ '/' :: (n.data ++ rest.flatMap (fun s => '/' :: s.data))) = _
    rw [splitCh_append_sep, ← joinSegs_eq_flat n rest, splitCh_joinSegs h (by simp)]

theorem relSegs_refl_append (l ts : List (List Char)) : relSegs l (l ++ ts) = ts := by
  induction l with
  | nil => cases ts <;> rfl
  | cons b bs ih => simp [relSegs, ih]

theorem relSegs_refl (l : List (List Char)) : relSegs l l = [] := by
  induction l with
  | nil => rfl
  | cons b bs ih => simp [relSegs, ih]

theorem relCh_refl (l : List Char) : relCh l l = ['.'] := by
  unfold relCh
  rw [relSegs_refl]

theorem relCh_pathJoinSegs (a : String) {segs : List String}
    (h : validSegsB segs = true) :
    relCh a.data (pathJoinSegs a segs).data = (relName segs).data := by
  unfold relCh
  rw [splitCh_pathJoinSegs a h, relSegs_refl_append]
  cases segs with
  | nil => rfl
  | cons n rest => rfl

theorem joinCh_append {xs ys : List (List Char)} (hx : xs ≠ []) (hy : ys ≠ []) :
    joinCh (xs ++ ys) = joinCh xs ++ '/' :: joinCh ys := by
  induction xs with
  | nil => exact absurd rfl hx
  | cons x xs' ih =>
    cases xs' with
    | nil =>
      cases ys with
      | nil => exact absurd rfl hy
      | cons y ys' => rfl
    | cons x2 xs'' =>
      show x ++ '/' :: joinCh ((x2 :: xs'') ++ ys) =
        (x ++ '/' :: joinCh (x2 :: xs'')) ++ '/' :: joinCh ys
      rw [ih (by simp)]
      simp

theorem matchesIgn_mono {cp r : List Char} (x : List Char)
    (h : matchesIgn r cp = true) : matchesIgn (r ++ '/' :: x) cp = true := by
  simp only [matchesIgn, Bool.or_eq_true] at h ⊢
  rcases h with h | h
  · have h' := eq_of_beq h
    subst h'
    refine Or.inr ?_
    rw [show r ++ '/' :: x = (r ++ ['/']) ++ x by simp]
    exact isPfx_self_append _ _
  · exact Or.inr (isPfx_append_right h _)

theorem relName_append_data {pre segs : List String} (hpne : pre ≠ [])
    (hsne : segs ≠ []) :
    (relName (pre ++ segs)).data = (relName pre).data ++ '/' :: (relName segs).data := by
  cases pre with
  | nil => exact absurd rfl hpne
  | cons p ps =>
    cases segs with
    | nil => exact absurd rfl hsne
    | cons q qs =>
      show (relName ((p :: ps) ++ q :: qs)).data = _
      have h1 : relName ((p :: ps) ++ q :: qs) =
          ⟨joinCh (((p :: ps) ++ q :: qs).map (·.data))⟩ := by
        rw [List.cons_append]
        rfl
      rw [h1]
      show joinCh (((p :: ps) ++ q :: qs).map (·.data)) = _
      rw [List.map_append, joinCh_append (by simp) (by simp)]
      rfl

theorem shouldIgnore_mono (a : String) {pre segs : List String} (ign : List String)
    (hpne : pre ≠ []) (hpre : validSegsB pre = true) (hsegs : validSegsB segs = true)
    (h : shouldIgnore (pathJoinSegs a pre) a ign = true) :
    shouldIgnore (pathJoinSegs a (pre ++ segs)) a ign = true := by
  cases hs : segs with
  | nil => simpa using h
  | cons q qs =>
    subst hs
    unfold shouldIgnore at h ⊢
    rw [List.any_eq_true] at h ⊢
    obtain ⟨spec, hmem, hspec⟩ := h
    refine ⟨spec, hmem, ?_⟩
    cases hcp : checkPathOf a.data spec.data with
    | none => rw [hcp] at hspec; simp at hspec
    | some cp =>
      rw [hcp] at hspec
      simp only at hspec ⊢
      rw [relCh_pathJoinSegs a hpre] at hspec
      rw [relCh_pathJoinSegs a (by
        simp only [validSegsB, List.all_append, Bool.and_eq_true]
        exact ⟨hpre, hsegs⟩ : validSegsB (pre ++ q :: qs) = true)]
      rw [relName_append_data hpne (by simp)]
      exact matchesIgn_mono _ hspec

/-! ### Structure of the collected file list -/

theorem allFilesE_ne_nil : ∀ (es : FSEntries), ∀ sc ∈ allFilesE es, sc.1 ≠ []
  | .nil => by simp [allFilesE]
  | .cons name child rest => by
    intro sc hsc
    unfold allFilesE at hsc
    rw [List.mem_append] at hsc
    rcases hsc with h | h
    · rw [List.mem_map] at h
      obtain ⟨sc', _, rfl⟩ := h
      simp
    · exact allFilesE_ne_nil rest sc h

theorem allFilesE_head_mem : ∀ (es : FSEntries), ∀ sc ∈ allFilesE es,
    ∃ n segs, sc.1 = n :: segs ∧ n ∈ entryNames es
  | .nil => by simp [allFilesE]
  | .cons name child rest => by
    intro sc hsc
    unfold allFilesE at hsc
    rw [List.mem_append] at hsc
    rcases hsc with h | h
    · rw [List.mem_map] at h
      obtain ⟨sc', _, rfl⟩ := h
      exact ⟨name, sc'.1, rfl, by simp [entryNames]⟩
    · obtain ⟨n, segs, hseg, hmem⟩ := allFilesE_head_mem rest sc h
      exact ⟨n, segs, hseg, by simp [entryNames, hmem]⟩

mutual

theorem allFilesN_valid : ∀ (n : FSNode), WFb n = true →
    ∀ sc ∈ allFilesN n, validSegsB sc.1 = true
  | .file c => by
    intro _ sc hsc
    simp only [allFilesN, List.mem_singleton] at hsc
    subst hsc
    rfl
  | .dir es => fun h sc hsc => allFilesE_valid es h sc hsc
  | .symlink _ => by simp [allFilesN]
  | .special => by simp [allFilesN]

theorem allFilesE_valid : ∀ (es : FSEntries), WFEb es = true →
    ∀ sc ∈ allFilesE es, validSegsB sc.1 = true
  | .nil => by simp [allFilesE]
  | .cons name child rest => by
    intro h sc hsc
    unfold WFEb at h
    simp only [Bool.and_eq_true] at h
    unfold allFilesE at hsc
    rw [List.mem_append] at hsc
    rcases hsc with hm | hm
    · rw [List.mem_map] at hm
      obtain ⟨sc', hsc', rfl⟩ := hm
      show ((name :: sc'.1).all validNameS) = true
      rw [List.all_cons, h.1.1.1]
      have hv := allFilesN_valid child h.1.2 sc' hsc'
      simp only [validSegsB] at hv
      rw [hv]
      rfl
    · exact allFilesE_valid rest h.2 sc hm

end

mutual

theorem allFilesN_nodup : ∀ (n : FSNode), WFb n = true →
    (allFilesN n).Pairwise (fun x y => x.1 ≠ y.1)
  | .file c => by
    intro _
    simp [allFilesN]
  | .dir es => fun h => allFilesE_nodup es h
  | .symlink _ => by simp [allFilesN]
  | .special => by simp [allFilesN]

theorem allFilesE_nodup : ∀ (es : FSEntries), WFEb es = true →
    (allFilesE es).Pairwise (fun x y => x.1 ≠ y.1)
  | .nil => by simp [allFilesE]
  | .cons name child rest => by
    intro h
    unfold WFEb at h
    simp only [Bool.and_eq_true] at h
    unfold allFilesE
    rw [List.pairwise_append]
    refine ⟨?_, allFilesE_nodup rest h.2, ?_⟩
    · rw [List.pairwise_map]
      exact (allFilesN_nodup child h.1.2).imp (by
        intro a b hne
        simpa using hne)
    · intro x hx y hy
      rw [List.mem_map] at hx
      obtain ⟨sc', _, rfl⟩ := hx
      obtain ⟨m, segs, hy1, hym⟩ := allFilesE_head_mem rest y hy
      intro hcontra
      rw [hy1] at hcontra
      have hnames : name = m := by
        have := congrArg (fun l => l.headD "") hcontra
        simpa using this
      have hnot := h.1.1.2
      rw [Bool.not_eq_true'] at hnot
      have hmm : name ∈ entryNames rest := hnames ▸ hym
      have hnot' : List.elem name (entryNames rest) = false := hnot
      rw [List.elem_eq_mem, decide_eq_false_iff_not] at hnot'
      exact hnot' hmm

end

/-! ### Walk characterization -/

theorem filesUnder_append (a : String) (ign : List String) (pre : List String)
    (l1 l2 : List (List String × List Nat)) :
    filesUnder a ign pre (l1 ++ l2) = filesUnder a ign pre l1 ++ filesUnder a ign pre l2 := by
  unfold filesUnder
  rw [List.filter_append, List.map_append]

theorem filesUnder_shift (a : String) (ign : List String) (pre : List String)
    (name : String) (l : List (List String × List Nat)) :
    filesUnder a ign pre (l.map (fun sc => (name :: sc.1, sc.2))) =
      filesUnder a ign (pre ++ [name]) l := by
  unfold filesUnder
  rw [List.filter_map, List.map_map]
  rw [List.filter_congr (by
    intro sc _
    show (!shouldIgnore (pathJoinSegs a (pre ++ name :: sc.1)) a ign) =
      (!shouldIgnore (pathJoinSegs a ((pre ++ [name]) ++ sc.1)) a ign)
    rw [List.append_cons])]
  refine List.map_congr_left ?_
  intro sc _
  show (pathJoinSegs a (pre ++ name :: sc.1), sc.2) =
    (pathJoinSegs a ((pre ++ [name]) ++ sc.1), sc.2)
  rw [List.append_cons]

mutual

theorem walkNode_char : ∀ (n : FSNode) (allow : Bool) (ign : List String) (a : String)
    (pre : List String) (L : List (String × List Nat)),
    WFb n = true → validSegsB pre = true →
    (pre = [] → shouldIgnore a a ign = false) →
    walkNode allow ign a (pathJoinSegs a pre) n = .ok L →
    L = filesUnder a ign pre (allFilesN n)
  | .file c => by
    intro allow ign a pre L _ _ _ hw
    unfold walkNode at hw
    unfold allFilesN filesUnder
    cases hig : shouldIgnore (pathJoinSegs a pre) a ign
    · rw [hig] at hw
      simp only [Bool.false_eq_true, if_false, Except.ok.injEq] at hw
      subst hw
      simp [List.filter, List.append_nil, hig]
    · rw [hig] at hw
      simp only [if_true] at hw
      simp only [Except.ok.injEq] at hw
      subst hw
      simp [List.filter, List.append_nil, hig]
  | .symlink t => by
    intro allow ign a pre L _ _ _ hw
    unfold walkNode at hw
    cases allow
    · simp at hw
    · simp only [Bool.not_true, Bool.false_eq_true, if_false, Except.ok.injEq] at hw
      subst hw
      rfl
  | .special => by
    intro allow ign a pre L _ _ _ hw
    unfold walkNode at hw
    simp only [Except.ok.injEq] at hw
    subst hw
    rfl
  | .dir es => by
    intro allow ign a pre L hWF hpre hroot hw
    unfold walkNode at hw
    cases hig : shouldIgnore (pathJoinSegs a pre) a ign
    · rw [hig] at hw
      simp only [Bool.false_eq_true, if_false] at hw
      have := walkEntries_char es allow ign a pre L hWF hpre hw
      exact this
    · rw [hig] at hw
      simp only [if_true, Except.ok.injEq] at hw
      subst hw
      have hpne : pre ≠ [] := by
        intro hnil
        subst hnil
        rw [pathJoinSegs_nil] at hig
        rw [hroot rfl] at hig
        exact Bool.false_ne_true hig
      unfold allFilesN
      symm
      unfold filesUnder
      rw [List.filter_eq_nil_iff.mpr (by
        intro sc hsc
        have hik := shouldIgnore_mono a ign hpne hpre
          (allFilesE_valid es hWF sc hsc) hig
        simp [hik])]
      rfl

theorem walkEntries_char : ∀ (es : FSEntries) (allow : Bool) (ign : List String)
    (a : String) (pre : List String) (L : List (String × List Nat)),
    WFEb es = true → validSegsB pre = true →
    walkEntries allow ign a (pathJoinSegs a pre) es = .ok L →
    L = filesUnder a ign pre (allFilesE es)
  | .nil => by
    intro allow ign a pre L _ _ hw
    unfold walkEntries at hw
    simp only [Except.ok.injEq] at hw
    subst hw
    rfl
  | .cons name child rest => by
    intro allow ign a pre L hWF hpre hw
    unfold WFEb at hWF
    simp only [Bool.and_eq_true] at hWF
    unfold walkEntries at hw
    rw [← pathJoinSegs_snoc a pre name] at hw
    cases hw1 : walkNode allow ign a (pathJoinSegs a (pre ++ [name])) child with
    | error e => rw [hw1] at hw; simp at hw
    | ok l1 =>
      rw [hw1] at hw
      cases hw2 : walkEntries allow ign a (pathJoinSegs a pre) rest with
      | error e => rw [hw2] at hw; simp at hw
      | ok l2 =>
        rw [hw2] at hw
        simp only [Except.ok.injEq] at hw
        subst hw
        have h1 := walkNode_char child allow ign a (pre ++ [name]) l1 hWF.1.2
          (by
            simp only [validSegsB, List.all_append, Bool.and_eq_true]
            exact ⟨hpre, by simp [List.all_cons, hWF.1.1.1]⟩)
          (by simp)
          hw1
        have h2 := walkEntries_char rest allow ign a pre l2 hWF.2 hpre hw2
        unfold allFilesE
        rw [filesUnder_append, filesUnder_shift, h1, h2]

end

theorem walkNode_root_ignored {allow : Bool} {ign : List String} {a : String}
    {n : FSNode} {L : List (String × List Nat)}
    (hig : shouldIgnore a a ign = true)
    (hw : walkNode allow ign a a n = .ok L) : L = [] := by
  cases n with
  | file c =>
    unfold walkNode at hw
    rw [hig] at hw
    simp only [if_true, Except.ok.injEq] at hw
    exact hw.symm
  | dir es =>
    unfold walkNode at hw
    rw [hig] at hw
    simp only [if_true, Except.ok.injEq] at hw
    exact hw.symm
  | symlink t =>
    unfold walkNode at hw
    cases allow
    · simp at hw
    · simp only [Bool.not_true, Bool.false_eq_true, if_false, Except.ok.injEq] at hw
      exact hw.symm
  | special =>
    unfold walkNode at hw
    simp only [Except.ok.injEq] at hw
    exact hw.symm

/-- What Serialize returns when it succeeds: the base-name display name, and
the sorted descriptors of exactly the non-ignored regular files (none at
all when the root itself is ignored). -/
theorem serialize_ok_files {s : Serializer} {absPath : String} {root : FSNode}
    {M : Manifest} (hWF : WFb root = true)
    (h : s.Serialize absPath root = .ok M) :
    M.ModelName = baseName absPath ∧
    M.Files = List.insertionSort fdLe
      ((if shouldIgnore absPath absPath (effIgnore s absPath) then []
        else filesUnder absPath (effIgnore s absPath) [] (allFilesN root)).map
        (fun pc => { Name := relStr absPath pc.1
                     Digest := [("sha256", sha256Hex pc.2)] : ResourceDescriptor })) := by
  unfold Serializer.Serialize at h
  cases hw : walkNode s.opts.AllowSymlinks (effIgnore s absPath) absPath absPath root with
  | error e => rw [hw] at h; exact absurd h (by simp)
  | ok files =>
    rw [hw] at h
    simp only [Except.ok.injEq] at h
    subst h
    refine ⟨rfl, ?_⟩
    cases hig : shouldIgnore absPath absPath (effIgnore s absPath) with
    | true =>
      rw [walkNode_root_ignored hig hw]
      simp
    | false =>
      have hw' : walkNode s.opts.AllowSymlinks (effIgnore s absPath) absPath
          (pathJoinSegs absPath []) root = .ok files := by
        rw [pathJoinSegs_nil]
        exact hw
      have hchar := walkNode_char root s.opts.AllowSymlinks (effIgnore s absPath)
        absPath [] files hWF rfl (fun _ => hig) hw'
      rw [hchar]
      simp

theorem string_data_inj {a b : String} (h : a.data = b.data) : a = b := by
  cases a
  cases b
  exact congrArg String.mk h

theorem map_data_inj : ∀ {s1 s2 : List String},
    s1.map (·.data) = s2.map (·.data) → s1 = s2
  | [], [] => fun _ => rfl
  | [], _ :: _ => by simp
  | _ :: _, [] => by simp
  | a :: as, b :: bs => by
    intro h
    simp only [List.map_cons, List.cons.injEq] at h
    rw [string_data_inj h.1, map_data_inj h.2]

theorem relName_ne_dot {segs : List String} (hv : validSegsB segs = true)
    (hne : segs ≠ []) : relName segs ≠ "." := by
  intro hcontra
  cases segs with
  | nil => exact hne rfl
  | cons n rest =>
    have hdata := congrArg String.data hcontra
    have hsplit := congrArg splitCh hdata
    rw [show (relName (n :: rest)).data = joinCh ((n :: rest).map (·.data)) from rfl,
      splitCh_joinSegs hv (by simp)] at hsplit
    have hdot : splitCh (String.data ".") = [['.']] := by decide
    rw [hdot] at hsplit
    have : (n :: rest) = ["."] := map_data_inj (by simpa using hsplit)
    simp only [List.cons.injEq] at this
    have hvn : validNameS n = true := by
      simp only [validSegsB, List.all_cons, Bool.and_eq_true] at hv
      exact hv.1
    rw [this.1] at hvn
    exact absurd hvn (by decide)

theorem relName_inj {s1 s2 : List String} (h1 : validSegsB s1 = true)
    (h2 : validSegsB s2 = true) (h : relName s1 = relName s2) : s1 = s2 := by
  cases s1 with
  | nil =>
    cases s2 with
    | nil => rfl
    | cons n rest => exact absurd h.symm (relName_ne_dot h2 (by simp))
  | cons n rest =>
    cases s2 with
    | nil => exact absurd h (relName_ne_dot h1 (by simp))
    | cons m ms =>
      have hdata := congrArg String.data h
      rw [show (relName (n :: rest)).data = joinCh ((n :: rest).map (·.data)) from rfl,
        show (relName (m :: ms)).data = joinCh ((m :: ms).map (·.data)) from rfl] at hdata
      have hsplit := congrArg splitCh hdata
      rw [splitCh_joinSegs h1 (by simp), splitCh_joinSegs h2 (by simp)] at hsplit
      exact map_data_inj hsplit

theorem validName_head {n : List Char} (h : validNameC n = true) :
    ∃ c cs, n = c :: cs ∧ c ≠ '/' := by
  cases n with
  | nil => exact absurd h (by decide)
  | cons c cs =>
    refine ⟨c, cs, rfl, ?_⟩
    intro hc
    subst hc
    simp [validNameC, List.contains_cons] at h

theorem relName_no_lead {segs : List String} (hv : validSegsB segs = true) :
    isPfx ['/'] (relName segs).data = false := by
  cases segs with
  | nil => decide
  | cons n rest =>
    rw [show (relName (n :: rest)).data = joinCh ((n :: rest).map (·.data)) from rfl]
    have hvn : validNameC n.data = true := by
      simp only [validSegsB, List.all_cons, Bool.and_eq_true] at hv
      exact hv.1
    obtain ⟨c, cs, hn, hc⟩ := validName_head hvn
    cases rest with
    | nil =>
      show isPfx ['/'] (joinCh [n.data]) = false
      show isPfx ['/'] n.data = false
      rw [hn]
      simp only [isPfx, Bool.and_eq_false_iff, decide_eq_false_iff_not]
      exact Or.inl (fun hcc => hc hcc.symm)
    | cons m ms =>
      show isPfx ['/'] (n.data ++ '/' :: joinCh ((m :: ms).map (·.data))) = false
      rw [hn]
      simp only [List.cons_append, isPfx, Bool.and_eq_false_iff, decide_eq_false_iff_not]
      exact Or.inl (fun hcc => hc hcc.symm)

/-! ### Claim C3 -/

/-- C3: for every well-formed tree and configuration on which Serialize
succeeds, the manifest's Files are strictly ascending under Go's byte-wise
string comparison of Names (in particular pairwise distinct), and every
Name is either "." (the degenerate root-is-a-file case) or the
forward-slash join of one or more valid path segments, never starting
with '/'. -/
theorem serialize_sorted_unique (s : Serializer) (absPath : String) (root : FSNode)
    (M : Manifest) (hWF : WFb root = true) (h : s.Serialize absPath root = .ok M) :
    M.Files.Pairwise (fun x y => strLtB x.Name y.Name = true) ∧
    M.Files.Pairwise (fun x y => x.Name ≠ y.Name) ∧
    (∀ fd ∈ M.Files, fd.Name = "." ∨
      ∃ segs, segs ≠ [] ∧ validSegsB segs = true ∧ fd.Name = relName segs) ∧
    (∀ fd ∈ M.Files, isPfx ['/'] fd.Name.data = false) := by
  obtain ⟨-, hfiles⟩ := serialize_ok_files hWF h
  have hmemQ : ∀ fd ∈ M.Files, ∃ sc, sc ∈ allFilesN root ∧ validSegsB sc.1 = true ∧
      fd.Name = relName sc.1 := by
    intro fd hfd
    rw [hfiles] at hfd
    have hfd2 := (List.perm_insertionSort fdLe _).mem_iff.mp hfd
    rw [List.mem_map] at hfd2
    obtain ⟨pc, hpc, rfl⟩ := hfd2
    cases hig : shouldIgnore absPath absPath (effIgnore s absPath) with
    | true => rw [hig] at hpc; simp at hpc
    | false =>
      rw [hig] at hpc
      simp only [Bool.false_eq_true, if_false] at hpc
      unfold filesUnder at hpc
      rw [List.mem_map] at hpc
      obtain ⟨sc, hsc, rfl⟩ := hpc
      rw [List.mem_filter] at hsc
      have hv := allFilesN_valid root hWF sc hsc.1
      refine ⟨sc, hsc.1, hv, ?_⟩
      show relStr absPath (pathJoinSegs absPath sc.1) = relName sc.1
      unfold relStr
      rw [relCh_pathJoinSegs absPath hv]
  have hne : M.Files.Pairwise (fun x y => x.Name ≠ y.Name) := by
    rw [hfiles]
    rw [(List.perm_insertionSort fdLe _).pairwise_iff (fun hxy => fun heq => hxy heq.symm)]
    cases hig : shouldIgnore absPath absPath (effIgnore s absPath) with
    | true => simp
    | false =>
      simp only [Bool.false_eq_true, if_false]
      unfold filesUnder
      rw [List.map_map, List.pairwise_map]
      have hnodup := (allFilesN_nodup root hWF).filter
        (fun sc => !shouldIgnore (pathJoinSegs absPath ([] ++ sc.1)) absPath (effIgnore s absPath))
      refine List.Pairwise.imp_of_mem ?_ hnodup
      intro sc1 sc2 hm1 hm2 hne1
      have hv1 := allFilesN_valid root hWF sc1 (List.mem_filter.mp hm1).1
      have hv2 := allFilesN_valid root hWF sc2 (List.mem_filter.mp hm2).1
      show ¬ ({ Name := relStr absPath (pathJoinSegs absPath ([] ++ sc1.1)), Digest := _ } :
        ResourceDescriptor).Name = _
      simp only [List.nil_append]
      show ¬ relStr absPath (pathJoinSegs absPath sc1.1) =
        relStr absPath (pathJoinSegs absPath sc2.1)
      unfold relStr
      rw [relCh_pathJoinSegs absPath hv1, relCh_pathJoinSegs absPath hv2]
      intro hcontra
      exact hne1 (relName_inj hv1 hv2 (by
        rw [string_mk_data, string_mk_data] at hcontra
        exact hcontra))
  have hsorted : M.Files.Pairwise fdLe := by
    rw [hfiles]
    exact List.sorted_insertionSort fdLe _
  refine ⟨?_, hne, ?_, ?_⟩
  · have hand := List.pairwise_and_iff.mpr ⟨hsorted, hne⟩
    refine hand.imp ?_
    intro x y hxy
    obtain ⟨hle, hnexy⟩ := hxy
    unfold fdLe strLtB at hle
    unfold strLtB
    cases hlt : ltCh x.Name.data y.Name.data with
    | true => rfl
    | false =>
      exact absurd (string_data_inj (ltCh_connected hlt hle)) hnexy
  · intro fd hfd
    obtain ⟨sc, _, hv, hname⟩ := hmemQ fd hfd
    cases hsc1 : sc.1 with
    | nil =>
      left
      rw [hname, hsc1]
      rfl
    | cons q qs =>
      right
      exact ⟨sc.1, by rw [hsc1]; simp, hv, hname⟩
  · intro fd hfd
    obtain ⟨sc, _, hv, hname⟩ := hmemQ fd hfd
    rw [hname]
    exact relName_no_lead hv

/-- Witness for C3 on a concrete two-file tree. -/
theorem serialize_sorted_unique_witness :
    WFb (.dir (.cons "b.txt" (.file [1])
      (.cons "a.txt" (.file [2]) .nil))) = true ∧
    ((New none).Serialize "/m" (.dir (.cons "b.txt" (.file [1])
        (.cons "a.txt" (.file [2]) .nil)))).map (fun m => m.Files.map (·.Name)) =
      .ok ["a.txt", "b.txt"] ∧
    (List.Pairwise (fun x y => strLtB x.Name y.Name = true)
      [({ Name := "a.txt", Digest := [("sha256", sha256Hex [2])] } : ResourceDescriptor),
       { Name := "b.txt", Digest := [("sha256", sha256Hex [1])] }]) :=
  ⟨by decide, by decide,
    ((serialize_sorted_unique (New none) "/m"
      (.dir (.cons "b.txt" (.file [1]) (.cons "a.txt" (.file [2]) .nil)))
      { ModelName := "m",
        Files := [{ Name := "a.txt", Digest := [("sha256", sha256Hex [2])] },
                  { Name := "b.txt", Digest := [("sha256", sha256Hex [1])] }] }
      (by decide) (by decide)).1 : _)⟩

/-- Every manifest entry of a successful Serialize comes from a non-ignored
regular file of the snapshot. -/
theorem serialize_name_src {s : Serializer} {absPath : String} {root : FSNode}
    {M : Manifest} (hWF : WFb root = true) (h : s.Serialize absPath root = .ok M) :
    ∀ fd ∈ M.Files, ∃ sc, sc ∈ allFilesN root ∧ validSegsB sc.1 = true ∧
      fd.Name = relName sc.1 ∧
      shouldIgnore (pathJoinSegs absPath sc.1) absPath (effIgnore s absPath) = false := by
  obtain ⟨-, hfiles⟩ := serialize_ok_files hWF h
  intro fd hfd
  rw [hfiles] at hfd
  have hfd2 := (List.perm_insertionSort fdLe _).mem_iff.mp hfd
  rw [List.mem_map] at hfd2
  obtain ⟨pc, hpc, rfl⟩ := hfd2
  cases hig : shouldIgnore absPath absPath (effIgnore s absPath) with
  | true => rw [hig] at hpc; simp at hpc
  | false =>
    rw [hig] at hpc
    simp only [Bool.false_eq_true, if_false] at hpc
    unfold filesUnder at hpc
    rw [List.mem_map] at hpc
    obtain ⟨sc, hsc, rfl⟩ := hpc
    rw [List.mem_filter] at hsc
    have hv := allFilesN_valid root hWF sc hsc.1
    have hkept : shouldIgnore (pathJoinSegs absPath sc.1) absPath (effIgnore s absPath) = false := by
      have := hsc.2
      simp only [List.nil_append, Bool.not_eq_true'] at this
      exact this
    refine ⟨sc, hsc.1, hv, ?_, hkept⟩
    show relStr absPath (pathJoinSegs absPath ([] ++ sc.1)) = relName sc.1
    simp only [List.nil_append]
    unfold relStr
    rw [relCh_pathJoinSegs absPath hv]

/-- Conversely, every non-ignored regular file of the snapshot appears in
the manifest of a successful Serialize, provided the root itself is not
ignored. -/
theorem serialize_name_mem {s : Serializer} {absPath : String} {root : FSNode}
    {M : Manifest} (hWF : WFb root = true) (h : s.Serialize absPath root = .ok M)
    (hig : shouldIgnore absPath absPath (effIgnore s absPath) = false) :
    ∀ sc ∈ allFilesN root,
      shouldIgnore (pathJoinSegs absPath sc.1) absPath (effIgnore s absPath) = false →
      relName sc.1 ∈ M.Files.map (·.Name) := by
  obtain ⟨-, hfiles⟩ := serialize_ok_files hWF h
  intro sc hsc hkeep
  have hv := allFilesN_valid root hWF sc hsc
  rw [hfiles, hig]
  simp only [Bool.false_eq_true, if_false]
  have hmem1 : sc ∈ (allFilesN root).filter
      (fun sc => !shouldIgnore (pathJoinSegs absPath ([] ++ sc.1)) absPath
        (effIgnore s absPath)) :=
    List.mem_filter.mpr ⟨hsc, by simp [hkeep]⟩
  have hmem2 : (pathJoinSegs absPath ([] ++ sc.1), sc.2) ∈
      filesUnder absPath (effIgnore s absPath) [] (allFilesN root) :=
    List.mem_map_of_mem _ hmem1
  have hmem3 := List.mem_map_of_mem
    (fun pc : String × List Nat =>
      ({ Name := relStr absPath pc.1,
         Digest := [("sha256", sha256Hex pc.2)] } : ResourceDescriptor)) hmem2
  have hmem4 := (List.perm_insertionSort fdLe _).mem_iff.mpr hmem3
  have hn : relName sc.1 = relStr absPath (pathJoinSegs absPath ([] ++ sc.1)) := by
    simp only [List.nil_append]
    unfold relStr
    rw [relCh_pathJoinSegs absPath hv]
  rw [hn]
  exact List.mem_map_of_mem (fun fd : ResourceDescriptor => fd.Name) hmem4

theorem beq_false_of_ne {α : Type} [BEq α] [LawfulBEq α] {a b : α} (h : a ≠ b) :
    (a == b) = false := by
  cases hb : a == b
  · rfl
  · exact absurd (eq_of_beq hb) h

theorem ne_of_beq_false {α : Type} [BEq α] [LawfulBEq α] {a b : α} (h : (a == b) = false) :
    a ≠ b := by
  intro he
  subst he
  simp at h

theorem isPfx_sep_dot (cp : List Char) : isPfx (cp ++ ['/']) ['.'] = false := by
  cases cp with
  | nil => decide
  | cons c cs =>
    show isPfx (c :: (cs ++ ['/'])) ['.'] = false
    simp only [isPfx, Bool.and_eq_false_iff, decide_eq_false_iff_not]
    refine Or.inr ?_
    cases cs <;> rfl

/-- The ignore decision at the root itself, when the lone specifier does not
resolve to ".". -/
theorem shouldIgnore_root_single {absPath spec : String} {cp : List Char}
    (hcp : checkPathOf absPath.data spec.data = some cp) (hdot : cp ≠ ['.']) :
    shouldIgnore absPath absPath [spec] = false := by
  unfold shouldIgnore
  simp only [List.any_cons, List.any_nil, Bool.or_false, hcp]
  rw [relCh_refl]
  unfold matchesIgn
  rw [isPfx_sep_dot]
  simp only [Bool.or_false]
  exact beq_false_of_ne (fun hc => hdot hc.symm)

/-! ### Claim C4 -/

/-- C4: a candidate is ignored by a specifier exactly when its root-relative
path equals the specifier's root-relative path or extends it below a '/';
consequently, in a successful Serialize, an ignored specifier removes every
file at or beneath it (no manifest Name matches it), and removes nothing
else (every non-matching regular file still appears). -/
theorem shouldIgnore_rule (absPath spec : String) (cp : List Char)
    (hcp : checkPathOf absPath.data spec.data = some cp) :
    (∀ path : String, shouldIgnore path absPath [spec] = true ↔
      (relCh absPath.data path.data = cp ∨
        isPfx (cp ++ ['/']) (relCh absPath.data path.data) = true)) ∧
    (∀ s : Serializer, spec ∈ s.opts.IgnorePaths →
      ∀ (root : FSNode) (M : Manifest), WFb root = true →
        s.Serialize absPath root = .ok M →
        ∀ fd ∈ M.Files, fd.Name.data ≠ cp ∧ isPfx (cp ++ ['/']) fd.Name.data = false) ∧
    (cp ≠ ['.'] →
      ∀ opts : Options, opts.IgnorePaths = [spec] → opts.IgnoreGitPaths = false →
      ∀ (root : FSNode) (M : Manifest), WFb root = true →
        (Serializer.mk opts).Serialize absPath root = .ok M →
        ∀ sc ∈ allFilesN root,
          (relName sc.1).data ≠ cp →
          isPfx (cp ++ ['/']) (relName sc.1).data = false →
          relName sc.1 ∈ M.Files.map (·.Name)) := by
  refine ⟨?_, ?_, ?_⟩
  · intro path
    unfold shouldIgnore
    simp only [List.any_cons, List.any_nil, Bool.or_false, hcp]
    unfold matchesIgn
    simp only [Bool.or_eq_true, beq_iff_eq]
  · intro s hspec root M hWF h fd hfd
    obtain ⟨sc, hsc, hv, hname, hkept⟩ := serialize_name_src hWF h fd hfd
    unfold shouldIgnore at hkept
    rw [List.any_eq_false] at hkept
    have hm := hkept spec (by
      unfold effIgnore
      exact List.mem_append_left _ hspec)
    rw [hcp] at hm
    simp only [Bool.not_eq_true] at hm
    unfold matchesIgn at hm
    rw [relCh_pathJoinSegs absPath hv] at hm
    simp only [Bool.or_eq_false_iff] at hm
    rw [hname]
    exact ⟨ne_of_beq_false hm.1, hm.2⟩
  · intro hdot opts hops hgit root M hWF h sc hsc hne hnpfx
    have heff : effIgnore (Serializer.mk opts) absPath = [spec] := by
      unfold effIgnore
      rw [hops, hgit]
      simp
    have hig : shouldIgnore absPath absPath (effIgnore (Serializer.mk opts) absPath) = false := by
      rw [heff]
      exact shouldIgnore_root_single hcp hdot
    refine serialize_name_mem hWF h hig sc hsc ?_
    rw [heff]
    unfold shouldIgnore
    simp only [List.any_cons, List.any_nil, Bool.or_false, hcp]
    unfold matchesIgn
    rw [relCh_pathJoinSegs absPath (allFilesN_valid root hWF sc hsc)]
    simp only [Bool.or_eq_false_iff]
    exact ⟨beq_false_of_ne hne, hnpfx⟩

/-- Witness for C4's matching rule at a concrete candidate and specifier. -/
theorem shouldIgnore_rule_witness :
    shouldIgnore "/m/sub/x" "/m" ["sub"] = true ↔
      (relCh "/m".data "/m/sub/x".data = "sub".data ∨
        isPfx ("sub".data ++ ['/']) (relCh "/m".data "/m/sub/x".data) = true) :=
  (shouldIgnore_rule "/m" "sub" "sub".data (by decide)).1 "/m/sub/x"

theorem absOk_head {a : String} (h : absOk a = true) : ∃ rest, a.data = '/' :: rest := by
  unfold absOk at h
  cases hd : a.data with
  | nil => rw [hd] at h; simp [splitCh] at h
  | cons c cs =>
    by_cases hc : c = '/'
    · subst hc
      exact ⟨cs, hd ▸ rfl⟩
    · exfalso
      rw [hd] at h
      simp only [splitCh, if_neg hc] at h
      cases hs : splitCh cs with
      | nil => rw [hs] at h; simp at h
      | cons s ss => rw [hs] at h; simp at h

theorem pathJoin_eq_pjs (a g : String) : pathJoin a g = pathJoinSegs a [g] := by
  rw [show ([g] : List String) = [] ++ [g] from rfl, pathJoinSegs_snoc, pathJoinSegs_nil]

/-- How one git specifier, joined absolute onto a clean root, is normalized
back by shouldIgnore: it resolves to exactly its own name. -/
theorem checkPathOf_git {a : String} (hA : absOk a = true) {g : String}
    (hg : validNameS g = true) (hgd : isPfx ['.', '.'] g.data = false) :
    checkPathOf a.data (pathJoin a g).data = some g.data := by
  obtain ⟨rest, hrest⟩ := absOk_head hA
  unfold checkPathOf
  have habs : isAbsCh (pathJoin a g).data = true := by
    show isAbsCh (a.data ++ '/' :: g.data) = true
    rw [hrest]
    rfl
  rw [if_pos habs]
  have hrel : relCh a.data (pathJoin a g).data = g.data := by
    rw [pathJoin_eq_pjs, relCh_pathJoinSegs a
      (by simp [validSegsB, List.all_cons, hg])]
    rfl
  show (if isPfx ['.', '.'] (relCh a.data (pathJoin a g).data) = true then none
    else some (relCh a.data (pathJoin a g).data)) = some g.data
  rw [hrel, hgd]
  simp

/-! ### Claim C5 -/

/-- C5: with the ignore-git-paths flag on, no entry of a successful
Serialize is named ".gitignore" or ".gitattributes", and none is ".git" or
".github" nor lies beneath them; with the flag off (and no caller ignore
paths), every regular file of the snapshot — git artifacts included —
appears in the manifest like any other file. -/
theorem gitPaths_filtering (s : Serializer) (absPath : String) (root : FSNode)
    (M : Manifest) (hA : absOk absPath = true) (hWF : WFb root = true)
    (h : s.Serialize absPath root = .ok M) :
    (s.opts.IgnoreGitPaths = true →
      ∀ fd ∈ M.Files,
        fd.Name ≠ ".gitignore" ∧ fd.Name ≠ ".gitattributes" ∧
        fd.Name ≠ ".git" ∧ isPfx ".git/".data fd.Name.data = false ∧
        fd.Name ≠ ".github" ∧ isPfx ".github/".data fd.Name.data = false) ∧
    (s.opts.IgnoreGitPaths = false → s.opts.IgnorePaths = [] →
      ∀ sc ∈ allFilesN root, relName sc.1 ∈ M.Files.map (·.Name)) := by
  constructor
  · intro hflag fd hfd
    obtain ⟨sc, hsc, hv, hname, hkept⟩ := serialize_name_src hWF h fd hfd
    unfold shouldIgnore at hkept
    rw [List.any_eq_false] at hkept
    have hgit : ∀ g ∈ gitPaths, fd.Name.data ≠ g.data ∧
        isPfx (g.data ++ ['/']) fd.Name.data = false := by
      intro g hg
      have hmemg : pathJoin absPath g ∈ effIgnore s absPath := by
        unfold effIgnore
        refine List.mem_append_right _ ?_
        rw [hflag]
        simp only [if_true]
        exact List.mem_map_of_mem _ hg
      have hm := hkept (pathJoin absPath g) hmemg
      have hgcases : g = ".git" ∨ g = ".gitignore" ∨ g = ".gitattributes" ∨
          g = ".github" := by
        simpa [gitPaths] using hg
      have hgv : validNameS g = true := by
        rcases hgcases with rfl | rfl | rfl | rfl <;> decide
      have hgdot : isPfx ['.', '.'] g.data = false := by
        rcases hgcases with rfl | rfl | rfl | rfl <;> decide
      rw [checkPathOf_git hA hgv hgdot] at hm
      simp only [Bool.not_eq_true] at hm
      unfold matchesIgn at hm
      rw [relCh_pathJoinSegs absPath hv] at hm
      simp only [Bool.or_eq_false_iff] at hm
      rw [hname]
      exact ⟨ne_of_beq_false hm.1, hm.2⟩
    have hne : ∀ g ∈ gitPaths, fd.Name ≠ g := by
      intro g hg heq
      exact (hgit g hg).1 (congrArg String.data heq)
    refine ⟨hne ".gitignore" (by simp [gitPaths]),
            hne ".gitattributes" (by simp [gitPaths]),
            hne ".git" (by simp [gitPaths]), ?_,
            hne ".github" (by simp [gitPaths]), ?_⟩
    · exact (hgit ".git" (by simp [gitPaths])).2
    · exact (hgit ".github" (by simp [gitPaths])).2
  · intro hflag hpaths sc hsc
    have heff : effIgnore s absPath = [] := by
      unfold effIgnore
      rw [hflag, hpaths]
      simp
    have hig : shouldIgnore absPath absPath (effIgnore s absPath) = false := by
      rw [heff]
      rfl
    refine serialize_name_mem hWF h hig sc hsc ?_
    rw [heff]
    rfl

/-- Witness for C5 on a concrete tree holding git artifacts. -/
theorem gitPaths_filtering_witness :
    ((New none).Serialize "/m"
        (.dir (.cons ".gitignore" (.file [3])
          (.cons "a.txt" (.file [10]) .nil)))).map (fun m => m.Files.map (·.Name)) =
      .ok ["a.txt"] ∧
    ({ Name := "a.txt", Digest := [("sha256", sha256Hex [10])] } : ResourceDescriptor).Name ≠
      ".gitignore" :=
  ⟨by decide,
   ((gitPaths_filtering (New none) "/m"
      (.dir (.cons ".gitignore" (.file [3]) (.cons "a.txt" (.file [10]) .nil)))
      { ModelName := "m",
        Files := [{ Name := "a.txt", Digest := [("sha256", sha256Hex [10])] }] }
      (by decide) (by decide) (by decide)).1 rfl
      { Name := "a.txt", Digest := [("sha256", sha256Hex [10])] }
      (by decide)).1⟩

/-! ### Claim C7: absolute specifiers outside the tree -/

theorem relSegs_escape : ∀ {b t : List (List Char)}, segsPfx b t = false →
    ∃ rest, relSegs b t = ['.', '.'] :: rest
  | [], t => by intro h; simp [segsPfx] at h
  | x :: bs, [] => by
    intro _
    refine ⟨List.replicate bs.length ['.', '.'], ?_⟩
    show List.replicate (bs.length + 1) ['.', '.'] = _
    rw [List.replicate_succ]
  | x :: bs, y :: ts => by
    intro h
    simp only [segsPfx, Bool.and_eq_false_iff] at h
    by_cases hxy : x = y
    · have h2 : segsPfx bs ts = false := by
        rcases h with h | h
        · subst hxy
          simp at h
        · exact h
      unfold relSegs
      rw [if_pos hxy]
      exact relSegs_escape h2
    · unfold relSegs
      rw [if_neg hxy]
      refine ⟨List.replicate bs.length ['.', '.'] ++ (y :: ts), ?_⟩
      rw [List.replicate_succ]
      rfl

theorem joinCh_head_pfx (x : List Char) (rest : List (List Char)) :
    isPfx x (joinCh (x :: rest)) = true := by
  cases rest with
  | nil =>
    show isPfx x x = true
    have := isPfx_self_append x []
    rwa [List.append_nil] at this
  | cons r rs => exact isPfx_self_append x _

theorem checkPathOf_outside {modelPath spec : String}
    (habs : isAbsCh spec.data = true)
    (hout : segsPfx (splitCh modelPath.data) (splitCh spec.data) = false) :
    checkPathOf modelPath.data spec.data = none := by
  unfold checkPathOf
  rw [if_pos habs]
  obtain ⟨rest, hrest⟩ := relSegs_escape hout
  have hcr : relCh modelPath.data spec.data = joinCh (['.', '.'] :: rest) := by
    unfold relCh
    rw [hrest]
  show (if isPfx ['.', '.'] (relCh modelPath.data spec.data) = true then none
    else some (relCh modelPath.data spec.data)) = none
  rw [hcr, if_pos (joinCh_head_pfx ['.', '.'] rest)]

mutual

theorem walkNode_congr : ∀ (n : FSNode) (allow : Bool) (ign1 ign2 : List String)
    (a path : String),
    (∀ p : String, shouldIgnore p a ign1 = shouldIgnore p a ign2) →
    walkNode allow ign1 a path n = walkNode allow ign2 a path n
  | .file c => by
    intro allow ign1 ign2 a path hcong
    unfold walkNode
    rw [hcong path]
  | .symlink t => by
    intro allow ign1 ign2 a path hcong
    rfl
  | .special => by
    intro allow ign1 ign2 a path hcong
    rfl
  | .dir es => by
    intro allow ign1 ign2 a path hcong
    unfold walkNode
    rw [hcong path, walkEntries_congr es allow ign1 ign2 a path hcong]

theorem walkEntries_congr : ∀ (es : FSEntries) (allow : Bool) (ign1 ign2 : List String)
    (a path : String),
    (∀ p : String, shouldIgnore p a ign1 = shouldIgnore p a ign2) →
    walkEntries allow ign1 a path es = walkEntries allow ign2 a path es
  | .nil => by
    intro allow ign1 ign2 a path hcong
    rfl
  | .cons name child rest => by
    intro allow ign1 ign2 a path hcong
    unfold walkEntries
    rw [walkNode_congr child allow ign1 ign2 a (pathJoin path name) hcong,
      walkEntries_congr rest allow ign1 ign2 a path hcong]

end

/-- C7: an ignore specifier given as an absolute path lying outside the tree
root is skipped: it resolves to no check path, never matches any candidate,
causes no error (the ignore decision simply moves on), and adding it to the
configuration changes nothing about Serialize's result. -/
theorem absolute_outside_spec_skipped (modelPath spec : String)
    (habs : isAbsCh spec.data = true)
    (hout : segsPfx (splitCh modelPath.data) (splitCh spec.data) = false) :
    checkPathOf modelPath.data spec.data = none ∧
    (∀ (path : String) (others : List String),
      shouldIgnore path modelPath (spec :: others) = shouldIgnore path modelPath others) ∧
    (∀ path : String, shouldIgnore path modelPath [spec] = false) ∧
    (∀ (opts : Options) (root : FSNode),
      (Serializer.mk { opts with IgnorePaths := spec :: opts.IgnorePaths }).Serialize
          modelPath root =
        (Serializer.mk opts).Serialize modelPath root) := by
  have hnone := checkPathOf_outside habs hout
  have hskip : ∀ (path : String) (others : List String),
      shouldIgnore path modelPath (spec :: others) = shouldIgnore path modelPath others := by
    intro path others
    unfold shouldIgnore
    rw [List.any_cons, hnone]
    rfl
  refine ⟨hnone, hskip, ?_, ?_⟩
  · intro path
    rw [hskip path []]
    rfl
  · intro opts root
    unfold Serializer.Serialize
    have heff : effIgnore (Serializer.mk { opts with IgnorePaths := spec :: opts.IgnorePaths })
        modelPath = spec :: effIgnore (Serializer.mk opts) modelPath := by
      unfold effIgnore
      rfl
    rw [heff, walkNode_congr root opts.AllowSymlinks
      (spec :: effIgnore (Serializer.mk opts) modelPath)
      (effIgnore (Serializer.mk opts) modelPath) modelPath modelPath
      (fun p => hskip p (effIgnore (Serializer.mk opts) modelPath))]

/-- Witness for C7 at a concrete outside specifier. -/
theorem absolute_outside_spec_skipped_witness :
    shouldIgnore "/m/a.txt" "/m" ["/x/y"] = false :=
  (absolute_outside_spec_skipped "/m" "/x/y" (by decide) (by decide)).2.2.1 "/m/a.txt"

/-! ### Claim C6: disallowed symlinks abort the walk -/

mutual

theorem walkNode_symErr : ∀ (n : FSNode) (ign : List String) (a path p : String),
    findSymN ign a path n = some p →
    walkNode false ign a path n =
      .error ("symlink not allowed: " ++ p ++ " (use AllowSymlinks option)")
  | .symlink t => by
    intro ign a path p hf
    unfold findSymN at hf
    simp only [Option.some.injEq] at hf
    subst hf
    rfl
  | .file c => by
    intro ign a path p hf
    simp [findSymN] at hf
  | .special => by
    intro ign a path p hf
    simp [findSymN] at hf
  | .dir es => by
    intro ign a path p hf
    unfold findSymN at hf
    unfold walkNode
    cases hig : shouldIgnore path a ign
    · rw [hig] at hf
      simp only [Bool.false_eq_true, if_false] at hf
      simp only [Bool.false_eq_true, if_false]
      exact walkEntries_symErr es ign a path p hf
    · rw [hig] at hf
      simp at hf

theorem walkEntries_symErr : ∀ (es : FSEntries) (ign : List String) (a path p : String),
    findSymE ign a path es = some p →
    walkEntries false ign a path es =
      .error ("symlink not allowed: " ++ p ++ " (use AllowSymlinks option)")
  | .nil => by
    intro ign a path p hf
    simp [findSymE] at hf
  | .cons name child rest => by
    intro ign a path p hf
    unfold findSymE at hf
    unfold walkEntries
    cases hc : findSymN ign a (pathJoin path name) child with
    | some q =>
      rw [hc] at hf
      simp only [Option.some.injEq] at hf
      subst hf
      rw [walkNode_symErr child ign a (pathJoin path name) q hc]
    | none =>
      rw [hc] at hf
      simp only at hf
      obtain ⟨L1, hL1⟩ := walkNode_symOk child ign a (pathJoin path name) hc
      rw [hL1]
      rw [walkEntries_symErr rest ign a path p hf]

theorem walkNode_symOk : ∀ (n : FSNode) (ign : List String) (a path : String),
    findSymN ign a path n = none →
    ∃ L, walkNode false ign a path n = .ok L
  | .symlink t => by
    intro ign a path hf
    simp [findSymN] at hf
  | .file c => by
    intro ign a path _
    unfold walkNode
    cases hig : shouldIgnore path a ign
    · exact ⟨[(path, c)], by simp⟩
    · exact ⟨[], by simp⟩
  | .special => by
    intro ign a path _
    exact ⟨[], rfl⟩
  | .dir es => by
    intro ign a path hf
    unfold findSymN at hf
    unfold walkNode
    cases hig : shouldIgnore path a ign
    · rw [hig] at hf
      simp only [Bool.false_eq_true, if_false] at hf ⊢
      exact walkEntries_symOk es ign a path hf
    · exact ⟨[], by simp⟩

theorem walkEntries_symOk : ∀ (es : FSEntries) (ign : List String) (a path : String),
    findSymE ign a path es = none →
    ∃ L, walkEntries false ign a path es = .ok L
  | .nil => by
    intro ign a path _
    exact ⟨[], rfl⟩
  | .cons name child rest => by
    intro ign a path hf
    unfold findSymE at hf
    cases hc : findSymN ign a (pathJoin path name) child with
    | some q => rw [hc] at hf; simp at hf
    | none =>
      rw [hc] at hf
      simp only at hf
      obtain ⟨L1, hL1⟩ := walkNode_symOk child ign a (pathJoin path name) hc
      obtain ⟨L2, hL2⟩ := walkEntries_symOk rest ign a path hf
      refine ⟨L1 ++ L2, ?_⟩
      unfold walkEntries
      rw [hL1, hL2]

end

/-- C6: when symlinks are disallowed and the walk visits a symbolic link
(at path p, the first one in walk order), Serialize returns no Manifest at
all: the whole operation aborts with the policy error naming p. -/
theorem serialize_symlink_aborts (s : Serializer) (absPath : String) (root : FSNode)
    (p : String) (hallow : s.opts.AllowSymlinks = false)
    (hfound : findSymN (effIgnore s absPath) absPath absPath root = some p) :
    s.Serialize absPath root =
      .error ("failed to walk directory: " ++
        ("symlink not allowed: " ++ p ++ " (use AllowSymlinks option)")) := by
  unfold Serializer.Serialize
  rw [hallow, walkNode_symErr root (effIgnore s absPath) absPath absPath p hfound]

/-- Witness for C6 on a concrete tree containing a symlink. -/
theorem serialize_symlink_aborts_witness :
    (New none).Serialize "/m"
        (.dir (.cons "data" (.file [1]) (.cons "link" (.symlink (.file [1])) .nil))) =
      .error ("failed to walk directory: " ++
        ("symlink not allowed: " ++ "/m/link" ++ " (use AllowSymlinks option)")) :=
  serialize_symlink_aborts (New none) "/m"
    (.dir (.cons "data" (.file [1]) (.cons "link" (.symlink (.file [1])) .nil)))
    "/m/link" rfl (by decide)

/-! ### Claim C8: symlinks with the allow flag on -/

/-- Counterexample to C8 as stated: with allow-symlinks on, a link whose
target is a regular file does NOT contribute a File Entry — filepath.Walk
reads entries with Lstat and never follows links, so the manifest holds
only the regular file "data" and nothing named "link". -/
theorem symlink_target_not_included :
    ((New (some { IgnorePaths := [], IgnoreGitPaths := true, AllowSymlinks := true })).Serialize
        "/m" (.dir (.cons "data" (.file [1])
          (.cons "link" (.symlink (.file [1])) .nil)))).map (fun m => m.Files.map (·.Name)) =
      .ok ["data"] ∧
    "link" ∉ (["data"] : List String) := by
  constructor
  · decide
  · decide

mutual

theorem walkNode_allow_ok : ∀ (n : FSNode) (ign : List String) (a path : String),
    ∃ L, walkNode true ign a path n = .ok L
  | .symlink t => by
    intro ign a path
    exact ⟨[], rfl⟩
  | .file c => by
    intro ign a path
    unfold walkNode
    cases hig : shouldIgnore path a ign
    · exact ⟨[(path, c)], by simp⟩
    · exact ⟨[], by simp⟩
  | .special => by
    intro ign a path
    exact ⟨[], rfl⟩
  | .dir es => by
    intro ign a path
    unfold walkNode
    cases hig : shouldIgnore path a ign
    · simp only [Bool.false_eq_true, if_false]
      exact walkEntries_allow_ok es ign a path
    · exact ⟨[], by simp⟩

theorem walkEntries_allow_ok : ∀ (es : FSEntries) (ign : List String) (a path : String),
    ∃ L, walkEntries true ign a path es = .ok L
  | .nil => by
    intro ign a path
    exact ⟨[], rfl⟩
  | .cons name child rest => by
    intro ign a path
    obtain ⟨L1, hL1⟩ := walkNode_allow_ok child ign a (pathJoin path name)
    obtain ⟨L2, hL2⟩ := walkEntries_allow_ok rest ign a path
    refine ⟨L1 ++ L2, ?_⟩
    unfold walkEntries
    rw [hL1, hL2]

end

mutual

theorem walkNode_strip : ∀ (n : FSNode) (ign : List String) (a path : String),
    walkNode true ign a path n = walkNode true ign a path (stripSymlinks n)
  | .symlink t => by
    intro ign a path
    rfl
  | .file c => by
    intro ign a path
    rfl
  | .special => by
    intro ign a path
    rfl
  | .dir es => by
    intro ign a path
    show walkNode true ign a path (.dir es) = walkNode true ign a path (.dir (stripSymlinksE es))
    unfold walkNode
    rw [walkEntries_strip es ign a path]

theorem walkEntries_strip : ∀ (es : FSEntries) (ign : List String) (a path : String),
    walkEntries true ign a path es = walkEntries true ign a path (stripSymlinksE es)
  | .nil => by
    intro ign a path
    rfl
  | .cons name child rest => by
    intro ign a path
    show walkEntries true ign a path (.cons name child rest) =
      walkEntries true ign a path (.cons name (stripSymlinks child) (stripSymlinksE rest))
    unfold walkEntries
    rw [walkNode_strip child ign a (pathJoin path name),
      walkEntries_strip rest ign a path]

end

/-- C8 as amended: when the allow-symlinks flag is on, Serialize always
succeeds, and every symbolic link is simply skipped — it is not followed
(the result is the same as on the snapshot with all links replaced by plain
non-regular entries), so a link neither adds a File Entry nor is descended
into, regardless of its target's type. -/
theorem serialize_symlinks_skipped (s : Serializer) (absPath : String) (root : FSNode)
    (hallow : s.opts.AllowSymlinks = true) :
    (∃ M, s.Serialize absPath root = .ok M) ∧
    s.Serialize absPath root = s.Serialize absPath (stripSymlinks root) := by
  constructor
  · unfold Serializer.Serialize
    rw [hallow]
    obtain ⟨L, hL⟩ := walkNode_allow_ok root (effIgnore s absPath) absPath absPath
    rw [hL]
    exact ⟨_, rfl⟩
  · unfold Serializer.Serialize
    rw [hallow, walkNode_strip root (effIgnore s absPath) absPath absPath]

/-- Witness for the amended C8 at a concrete serializer and tree. -/
theorem serialize_symlinks_skipped_witness :
    (∃ M, (New (some { IgnorePaths := [], IgnoreGitPaths := true, AllowSymlinks := true })).Serialize
        "/m" (.dir (.cons "link" (.symlink (.dir (.cons "x" (.file [9]) .nil))) .nil)) = .ok M) ∧
    (New (some { IgnorePaths := [], IgnoreGitPaths := true, AllowSymlinks := true })).Serialize
        "/m" (.dir (.cons "link" (.symlink (.dir (.cons "x" (.file [9]) .nil))) .nil)) =
      (New (some { IgnorePaths := [], IgnoreGitPaths := true, AllowSymlinks := true })).Serialize
        "/m" (stripSymlinks (.dir (.cons "link" (.symlink (.dir (.cons "x" (.file [9]) .nil))) .nil))) :=
  serialize_symlinks_skipped
    (New (some { IgnorePaths := [], IgnoreGitPaths := true, AllowSymlinks := true }))
    "/m" (.dir (.cons "link" (.symlink (.dir (.cons "x" (.file [9]) .nil))) .nil)) rfl

/-! ### Claim C10: Serialize does not mutate the caller's Options -/

theorem readSlice_alloc {h : GoHeap} {s : GoSlice} (hlt : s.arr < h.arrays.length)
    (x : List String) : readSlice ⟨h.arrays ++ [x]⟩ s = readSlice h s := by
  unfold readSlice
  rw [List.getD_eq_getElem?_getD, List.getD_eq_getElem?_getD,
    List.getElem?_append_left hlt]

theorem readSlice_set_other {h : GoHeap} {s : GoSlice} {j : Nat} (hne : j ≠ s.arr)
    (x : List String) : readSlice ⟨h.arrays.set j x⟩ s = readSlice h s := by
  unfold readSlice
  rw [List.getD_eq_getElem?_getD, List.getD_eq_getElem?_getD,
    List.getElem?_set_ne hne]

theorem readSlice_length {h : GoHeap} {s : GoSlice} (hv : SliceValid h s) :
    (readSlice h s).length = s.len := by
  obtain ⟨_, hcap, hlen⟩ := hv
  unfold readSlice
  rw [List.length_take, List.length_drop]
  exact Nat.min_eq_left (by omega)

theorem take_succ_set : ∀ (l : List String) (n : Nat) (v : String), n < l.length →
    (l.set n v).take (n + 1) = l.take n ++ [v]
  | [], n, v => by intro h; simp at h
  | a :: as, 0, v => by intro _; rfl
  | a :: as, n + 1, v => by
    intro h
    show ((a :: as.set n v).take (n + 2)) = (a :: as.take n) ++ [v]
    rw [List.take_succ_cons, take_succ_set as n v (by simpa using h)]
    rfl

theorem appendSlice_inv {h : GoHeap} {s t : GoSlice} (v : String)
    (hvs : SliceValid h s) (hta : t.arr < h.arrays.length) (hne : t.arr ≠ s.arr) :
    SliceValid (appendSlice h s v).1 (appendSlice h s v).2 ∧
    t.arr < (appendSlice h s v).1.arrays.length ∧
    t.arr ≠ (appendSlice h s v).2.arr ∧
    readSlice (appendSlice h s v).1 t = readSlice h t ∧
    readSlice (appendSlice h s v).1 (appendSlice h s v).2 = readSlice h s ++ [v] := by
  obtain ⟨hsa, hscap, hslen⟩ := hvs
  by_cases hlt : s.len < s.cap
  · have heq : appendSlice h s v =
        (⟨h.arrays.set s.arr ((h.arrays.getD s.arr []).set (s.off + s.len) v)⟩,
         { s with len := s.len + 1 }) := by
      unfold appendSlice
      rw [if_pos hlt]
    rw [heq]
    dsimp only
    have hgetd : (h.arrays.set s.arr
        ((h.arrays.getD s.arr []).set (s.off + s.len) v)).getD s.arr [] =
        (h.arrays.getD s.arr []).set (s.off + s.len) v := by
      rw [List.getD_eq_getElem?_getD, List.getElem?_set_self hsa]
      rfl
    refine ⟨⟨by simpa using hsa, ?_, by show s.len + 1 ≤ s.cap; omega⟩,
      by simpa using hta, hne, readSlice_set_other (Ne.symm hne) _, ?_⟩
    · show s.off + s.cap ≤ _
      rw [hgetd, List.length_set]
      exact hscap
    · unfold readSlice
      dsimp only
      rw [hgetd, List.drop_set, if_neg (by omega)]
      rw [show s.off + s.len - s.off = s.len from by omega]
      rw [take_succ_set _ s.len v (by rw [List.length_drop]; omega)]
  · have hRlen : (readSlice h s).length = s.len := readSlice_length ⟨hsa, hscap, hslen⟩
    have heq : appendSlice h s v =
        (⟨h.arrays ++ [readSlice h s ++ v :: List.replicate (2 * s.cap + 1 - s.len - 1) ""]⟩,
         ⟨h.arrays.length, 0, s.len + 1, 2 * s.cap + 1⟩) := by
      unfold appendSlice
      rw [if_neg hlt]
      rfl
    rw [heq]
    dsimp only
    have hgetd : ((h.arrays ++ [readSlice h s ++ v ::
        List.replicate (2 * s.cap + 1 - s.len - 1) ""]).getD h.arrays.length []) =
        readSlice h s ++ v :: List.replicate (2 * s.cap + 1 - s.len - 1) "" := by
      rw [List.getD_eq_getElem?_getD, List.getElem?_concat_length]
      rfl
    refine ⟨⟨by show h.arrays.length < (h.arrays ++ [_]).length; simp, ?_,
      by show s.len + 1 ≤ 2 * s.cap + 1; omega⟩,
      by show t.arr < (h.arrays ++ [_]).length; simp; omega,
      by show t.arr ≠ h.arrays.length; omega, readSlice_alloc hta _, ?_⟩
    · show 0 + (2 * s.cap + 1) ≤ _
      rw [hgetd]
      simp only [List.length_append, List.length_cons, List.length_replicate, hRlen]
      omega
    · show List.take (s.len + 1) (List.drop 0
        ((h.arrays ++ [readSlice h s ++ v ::
          List.replicate (2 * s.cap + 1 - s.len - 1) ""]).getD h.arrays.length [])) =
        readSlice h s ++ [v]
      rw [hgetd, List.drop_zero, ← hRlen, List.take_append 1]
      simp

theorem foldAppend_inv (h0 : GoHeap) (t : GoSlice) :
    ∀ (gs : List String) (h : GoHeap) (s : GoSlice),
      SliceValid h s → t.arr < h.arrays.length → t.arr ≠ s.arr →
      readSlice h t = readSlice h0 t →
      readSlice (gs.foldl (fun hs g => appendSlice hs.1 hs.2 g) (h, s)).1 t =
        readSlice h0 t ∧
      readSlice (gs.foldl (fun hs g => appendSlice hs.1 hs.2 g) (h, s)).1
          (gs.foldl (fun hs g => appendSlice hs.1 hs.2 g) (h, s)).2 =
        readSlice h s ++ gs
  | [] => by
    intro h s _ _ _ hread
    exact ⟨hread, by simp⟩
  | g :: rest => by
    intro h s hv hta hne hread
    obtain ⟨hv', hta', hne', htp, hsp⟩ := appendSlice_inv g hv hta hne
    have hstep := foldAppend_inv h0 t rest (appendSlice h s g).1 (appendSlice h s g).2
      hv' hta' hne' (htp.trans hread)
    rw [List.foldl_cons]
    refine ⟨hstep.1, ?_⟩
    rw [hstep.2, hsp]
    simp

/-- C10: the ignore-list construction of Serialize (make, copy, conditional
appends) never writes to the caller's IgnorePaths slice: after the fragment
runs, the caller's slice reads exactly as before, and the private copy holds
the caller's elements followed by the git specifiers. -/
theorem serialize_ignorePaths_unchanged (h : GoHeap) (caller : GoSlice)
    (gitFlag : Bool) (absPath : String) (hv : SliceValid h caller) :
    readSlice (buildIgnoreSlices h caller gitFlag absPath).1 caller =
      readSlice h caller ∧
    readSlice (buildIgnoreSlices h caller gitFlag absPath).1
        (buildIgnoreSlices h caller gitFlag absPath).2 =
      readSlice h caller ++
        (if gitFlag then gitPaths.map (fun g => pathJoin absPath g) else []) := by
  obtain ⟨hca, hccap, hclen⟩ := hv
  set N := h.arrays.length with hN
  have hmk : makeSlice h caller.len =
      (⟨h.arrays ++ [List.replicate caller.len ""]⟩, ⟨N, 0, caller.len, caller.len⟩) := rfl
  have hgetd1 : ((⟨h.arrays ++ [List.replicate caller.len ""]⟩ : GoHeap).arrays.getD N []) =
      List.replicate caller.len "" := by
    show ((h.arrays ++ [List.replicate caller.len ""]).getD h.arrays.length []) = _
    rw [List.getD_eq_getElem?_getD, List.getElem?_concat_length]
    rfl
  have hread1 : readSlice ⟨h.arrays ++ [List.replicate caller.len ""]⟩ caller =
      readSlice h caller := readSlice_alloc hca _
  have hRlen : (readSlice h caller).length = caller.len :=
    readSlice_length ⟨hca, hccap, hclen⟩
  -- the heap after copy: the fresh array now holds the caller's elements
  have htk : (readSlice h caller).take caller.len = readSlice h caller := by
    rw [← hRlen, List.take_length]
  have hcopy : copySlice ⟨h.arrays ++ [List.replicate caller.len ""]⟩
      ⟨N, 0, caller.len, caller.len⟩ caller =
      ⟨(h.arrays ++ [List.replicate caller.len ""]).set N (readSlice h caller)⟩ := by
    unfold copySlice
    dsimp only
    congr 1
    rw [hgetd1]
    rw [Nat.min_self, List.take_zero, List.nil_append, Nat.zero_add, List.drop_replicate]
    rw [show caller.len - caller.len = 0 from by omega]
    rw [List.replicate_zero, List.append_nil]
    rw [hread1, htk]
  have hgetd2 : (((h.arrays ++ [List.replicate caller.len ""]).set N
      (readSlice h caller)).getD N []) = readSlice h caller := by
    rw [List.getD_eq_getElem?_getD, List.getElem?_set_self (by simp [hN])]
    rfl
  have hread2 : readSlice ⟨(h.arrays ++ [List.replicate caller.len ""]).set N
      (readSlice h caller)⟩ caller = readSlice h caller := by
    rw [readSlice_set_other (by omega) _, hread1]
  have hvalid2 : SliceValid ⟨(h.arrays ++ [List.replicate caller.len ""]).set N
      (readSlice h caller)⟩ ⟨N, 0, caller.len, caller.len⟩ := by
    refine ⟨by simp [hN], ?_, le_refl _⟩
    show 0 + caller.len ≤ _
    rw [hgetd2, hRlen]
    omega
  have hreadip : readSlice ⟨(h.arrays ++ [List.replicate caller.len ""]).set N
      (readSlice h caller)⟩ ⟨N, 0, caller.len, caller.len⟩ = readSlice h caller := by
    show ((((h.arrays ++ [List.replicate caller.len ""]).set N
      (readSlice h caller)).getD N []).drop 0).take caller.len = readSlice h caller
    rw [hgetd2, List.drop_zero, htk]
  have hbuild : buildIgnoreSlices h caller gitFlag absPath =
      (if gitFlag then
        gitPaths.foldl (fun hs g => appendSlice hs.1 hs.2 (pathJoin absPath g))
          (⟨(h.arrays ++ [List.replicate caller.len ""]).set N (readSlice h caller)⟩,
           ⟨N, 0, caller.len, caller.len⟩)
      else (⟨(h.arrays ++ [List.replicate caller.len ""]).set N (readSlice h caller)⟩,
        ⟨N, 0, caller.len, caller.len⟩)) := by
    unfold buildIgnoreSlices
    rw [hmk]
    dsimp only
    rw [hcopy]
  cases gitFlag with
  | false =>
    rw [hbuild]
    simp only [Bool.false_eq_true, if_false]
    exact ⟨hread2, by rw [hreadip]; simp⟩
  | true =>
    rw [hbuild]
    simp only [if_true]
    have hfold : gitPaths.foldl (fun hs g => appendSlice hs.1 hs.2 (pathJoin absPath g))
        (⟨(h.arrays ++ [List.replicate caller.len ""]).set N (readSlice h caller)⟩,
         ⟨N, 0, caller.len, caller.len⟩) =
        (gitPaths.map (fun g => pathJoin absPath g)).foldl
          (fun hs g => appendSlice hs.1 hs.2 g)
          (⟨(h.arrays ++ [List.replicate caller.len ""]).set N (readSlice h caller)⟩,
           ⟨N, 0, caller.len, caller.len⟩) := by
      rw [List.foldl_map]
    rw [hfold]
    have hinv := foldAppend_inv h caller (gitPaths.map (fun g => pathJoin absPath g))
      ⟨(h.arrays ++ [List.replicate caller.len ""]).set N (readSlice h caller)⟩
      ⟨N, 0, caller.len, caller.len⟩ hvalid2
      (by
        show caller.arr < ((h.arrays ++ [List.replicate caller.len ""]).set N
          (readSlice h caller)).length
        rw [List.length_set, List.length_append, List.length_singleton]
        omega)
      (by show caller.arr ≠ N; omega) hread2
    exact ⟨hinv.1, by rw [hinv.2, hreadip]⟩

/-- Witness for C10 at a concrete heap and caller slice. -/
theorem serialize_ignorePaths_unchanged_witness :
    SliceValid ⟨[["u"]]⟩ ⟨0, 0, 1, 1⟩ ∧
    readSlice (buildIgnoreSlices ⟨[["u"]]⟩ ⟨0, 0, 1, 1⟩ true "/m").1 ⟨0, 0, 1, 1⟩ =
      readSlice ⟨[["u"]]⟩ ⟨0, 0, 1, 1⟩ :=
  ⟨by decide,
   (serialize_ignorePaths_unchanged ⟨[["u"]]⟩ ⟨0, 0, 1, 1⟩ true "/m" (by decide)).1⟩

end ModelSigning
